import Mathlib

/-!
Verification of the B+Tree core of btree-js (src/btree.h, src/btree.cpp, the
union-based revision whose implementation starts at btree.cpp:1409).

The tree is templated over Key, Value and a comparator; the shallow embedding
instantiates Key = Value = Nat with the standard strict order, matching the
numeric instantiations exercised by the repository (BTree<int, std::string> in
test.cpp, numeric JS keys in the addon).  Pointers are modelled structurally:
a node owns its children as a list; the non-owning prevLeaf/nextLeaf pointers
of leaves are modelled by giving every leaf a numeric id and keeping two
association maps (id to optional id) in the tree state, updated exactly where
the C++ updates the pointer fields.  size_t arithmetic on m_Size is taken
modulo 2 ^ 64.

One part of the code is not deterministic at the source level: in
BTree::removeFromNode (btree.cpp:1926) the initial scan reads
node->internal.keys on nodes that are leaves.  Node stores LeafNode/InternalNode
in a union (btree.h, second revision), so for a leaf this reads the inactive
union member: keys.size() aliases the entry count, keys[0] aliases
entries[0].first (Key is the first member of the pair), and keys[idx] for
idx >= 1 reads indeterminate bytes inside the entry storage.  The Boolean
outcome of that scan is determined when the leaf is empty, when the searched
key is at most the first entry key, or when the leaf has exactly one entry;
in the remaining case it depends on indeterminate memory, which the embedding
models with an oracle stream of Booleans (g : Nat -> Bool with a counter
threaded through execution).  Every theorem about remove quantifies over the
oracle, so it holds for every resolution of the indeterminate reads.
-/

namespace BTreeJs

/-- Capacity parameter: BTree::s_CAPACITY = 32 (btree.h). -/
def CAP : Nat := 32

/-- BTree::s_MAX_KEYS = 2 * s_CAPACITY - 1 = 63 (btree.h). -/
def MAXK : Nat := 63

/-- A leaf entry: std::pair<Key, Value> with Key = Value = Nat. -/
abbrev Entry := Nat × Nat

/-- BTree::Node (btree.h): a union of LeafNode (entries) and InternalNode
(keys + children), discriminated by isLeaf.  Each leaf carries a numeric id
standing for its address, used to model the prevLeaf/nextLeaf pointers. -/
inductive Node : Type where
  | leaf (id : Nat) (entries : List Entry)
  | internal (keys : List Nat) (children : List Node)

/-- Default node used for out-of-range children accesses (which are undefined
behaviour in the C++ and unreachable in well-formed trees). -/
def dummyNode : Node := Node.leaf 0 []

/-- Association map from leaf id to an optional leaf id, modelling one of the
two pointer fields (nextLeaf or prevLeaf) over all leaves.  Ids that were
never assigned map to none, matching the nullptr initialisation in the Node
constructor (btree.cpp:1495). -/
abbrev LinkMap := List (Nat × Option Nat)

/-- Read a pointer field of leaf i. -/
def lmGet (m : LinkMap) (i : Nat) : Option Nat :=
  match m.lookup i with
  | some v => v
  | none => none

/-- Write a pointer field of leaf i. -/
def lmSet (m : LinkMap) (i : Nat) (v : Option Nat) : LinkMap :=
  (i, v) :: m

/-- The leaf-chain part of the tree state: the two pointer fields of every
leaf plus the allocator counter for fresh leaf ids. -/
structure ChainSt where
  next : LinkMap
  prev : LinkMap
  freshId : Nat

/-- The whole BTree object: m_Root, m_Size (a size_t, kept modulo 2^64) and
the leaf chain state. -/
structure BTState where
  root : Node
  msize : Nat
  chain : ChainSt

/-- BTree::BTree (btree.cpp:1524): m_Size = 0, m_Root = new Node(true),
whose prevLeaf/nextLeaf are nullptr.  The root leaf gets id 0. -/
def initState : BTState :=
  { root := Node.leaf 0 [], msize := 0, chain := { next := [], prev := [], freshId := 1 } }

/-- Result of the linear scans "while (i < keys.size() && less(keys[i], key)) ++i"
(insertNonFull, removeFromNode), which on sorted keys is also the result of
the std::lower_bound calls in search and range: the first index whose key is
not less than the probe. -/
def lowerBoundIdx (ks : List Nat) (key : Nat) : Nat :=
  (ks.takeWhile (fun k => decide (k < key))).length

/-- Result of std::upper_bound on sorted keys (range descent, btree.cpp:2162):
the first index whose key is greater than the probe. -/
def upperBoundIdx (ks : List Nat) (key : Nat) : Nat :=
  (ks.takeWhile (fun k => decide (¬ key < k))).length

/-- The count "child->isLeaf ? child->leaf.entries.size() : child->internal.keys.size()"
used throughout insert and remove. -/
def nodeCount : Node → Nat
  | .leaf _ es => es.length
  | .internal ks _ => ks.length

mutual
/-- Height of a node: 0 for leaves; used as recursion fuel (the C++ recursions
descend one level per step, so height bounds the recursion depth). -/
def heightN : Node → Nat
  | .leaf _ _ => 0
  | .internal _ cs => heightL cs + 1
def heightL : List Node → Nat
  | [] => 0
  | c :: cs => max (heightN c) (heightL cs)
end

mutual
/-- In-order sequence of all entries of the subtree (left to right). -/
def inorderN : Node → List Entry
  | .leaf _ es => es
  | .internal _ cs => inorderL cs
def inorderL : List Node → List Entry
  | [] => []
  | c :: cs => inorderN c ++ inorderL cs
end

mutual
/-- In-order sequence of the leaf ids of the subtree. -/
def leafIdsN : Node → List Nat
  | .leaf id _ => [id]
  | .internal _ cs => leafIdsL cs
def leafIdsL : List Node → List Nat
  | [] => []
  | c :: cs => leafIdsN c ++ leafIdsL cs
end

/-- Keys stored in the tree (in order). -/
def keysOfState (st : BTState) : List Nat :=
  (inorderN st.root).map Prod.fst

/-- BTree::splitChild (btree.cpp:1569) acting on the parent key/child lists at
the given index, together with the leaf-chain updates of the leaf case.
Leaf case: the upper half (entries [CAP .. 2 CAP - 2]) moves to a fresh right
sibling; sibling->nextLeaf = child->nextLeaf; the old successor (if any) gets
prevLeaf = sibling; child->nextLeaf = sibling; sibling->prevLeaf = child; the
promoted separator is the first entry key of the sibling (copied, not removed).
Internal case: the median key child->keys[CAP-1] is promoted to the parent,
keys [CAP ..] and children [CAP ..] move to the fresh sibling.  trivial_insert
is a plain insert at an index (btree.cpp:1429). -/
def splitChild (ks : List Nat) (cs : List Node) (index : Nat) (ch : ChainSt) :
    List Nat × List Node × ChainSt :=
  match cs.getD index dummyNode with
  | .leaf cid es =>
      let leftEs := es.take CAP
      let rightEs := es.drop CAP
      let sid := ch.freshId
      let oldNext := lmGet ch.next cid
      let next1 := lmSet ch.next sid oldNext
      let prev1 :=
        match oldNext with
        | some x => lmSet ch.prev x (some sid)
        | none => ch.prev
      let next2 := lmSet next1 cid (some sid)
      let prev2 := lmSet prev1 sid (some cid)
      let promoteKey := (rightEs.headD (0, 0)).1
      (ks.insertIdx index promoteKey,
       (cs.set index (Node.leaf cid leftEs)).insertIdx (index + 1) (Node.leaf sid rightEs),
       { next := next2, prev := prev2, freshId := ch.freshId + 1 })
  | .internal cks ccs =>
      let mid := CAP - 1
      let medianKey := cks.getD mid 0
      let sibKs := cks.drop (mid + 1)
      let sibCs := ccs.drop (mid + 1)
      let leftKs := cks.take mid
      let leftCs := ccs.take (mid + 1)
      (ks.insertIdx index medianKey,
       (cs.set index (Node.internal leftKs leftCs)).insertIdx (index + 1) (Node.internal sibKs sibCs),
       ch)

/-- BTree::insertNonFull (btree.cpp:1647).  Leaf: linear scan to the first
entry whose key is not less; overwrite in place (returning false) on an exact
match, otherwise insert there (returning true).  Internal: locate the child by
the same scan over the routing keys, pre-split it if it holds s_MAX_KEYS
keys/entries, re-aim using the just-promoted separator, and recurse.  Fuel
bounds the recursion depth (one level per call). -/
def insertNonFull (fuel : Nat) (node : Node) (key val : Nat) (ch : ChainSt) :
    Node × Bool × ChainSt :=
  match fuel with
  | 0 => (node, false, ch)
  | fuel + 1 =>
    match node with
    | .leaf id es =>
        let pre := es.takeWhile (fun e => decide (e.1 < key))
        let post := es.dropWhile (fun e => decide (e.1 < key))
        match post with
        | e :: rest =>
            if ¬ key < e.1 ∧ ¬ e.1 < key then
              (Node.leaf id (pre ++ (e.1, val) :: rest), false, ch)
            else
              (Node.leaf id (pre ++ (key, val) :: post), true, ch)
        | [] => (Node.leaf id (pre ++ [(key, val)]), true, ch)
    | .internal ks cs =>
        let i := lowerBoundIdx ks key
        let child := cs.getD i dummyNode
        if nodeCount child ≥ MAXK then
          let s := splitChild ks cs i ch
          let ks2 := s.1
          let cs2 := s.2.1
          let ch2 := s.2.2
          let i2 := if ks2.getD i 0 < key then i + 1 else i
          let r := insertNonFull fuel (cs2.getD i2 dummyNode) key val ch2
          (Node.internal ks2 (cs2.set i2 r.1), r.2.1, r.2.2)
        else
          let r := insertNonFull fuel child key val ch
          (Node.internal ks (cs.set i r.1), r.2.1, r.2.2)

/-- BTree::insert (btree.cpp:1693).  If the root is full, a fresh internal
root adopts it and splitChild(newRoot, 0) runs; then insertNonFull from the
root; m_Size is incremented exactly when a new entry was added. -/
def insertT (st : BTState) (key val : Nat) : BTState × Bool :=
  let rootFull := nodeCount st.root ≥ MAXK
  let p :=
    if rootFull then
      let s := splitChild ([] : List Nat) [st.root] 0 st.chain
      (Node.internal s.1 s.2.1, s.2.2)
    else (st.root, st.chain)
  let r := insertNonFull (heightN p.1 + 1) p.1 key val p.2
  ({ root := r.1,
     msize := if r.2.1 then (st.msize + 1) % 2 ^ 64 else st.msize,
     chain := r.2.2 },
   r.2.1)

/-- Leaf scan of BTree::search (btree.cpp:1733): return the value on the first
exact match, stop as soon as an entry key exceeds the probe. -/
def findInLeaf (es : List Entry) (key : Nat) : Option Nat :=
  match es with
  | [] => none
  | e :: rest =>
      if ¬ e.1 < key ∧ ¬ key < e.1 then some e.2
      else if key < e.1 then none
      else findInLeaf rest key

/-- BTree::search (btree.cpp:1716): descend by std::lower_bound over the
routing keys, then scan the leaf. -/
def searchNode (fuel : Nat) (n : Node) (key : Nat) : Option Nat :=
  match fuel, n with
  | _, .leaf _ es => findInLeaf es key
  | 0, .internal _ _ => none
  | fuel + 1, .internal ks cs =>
      searchNode fuel (cs.getD (lowerBoundIdx ks key) dummyNode) key

/-- BTree::search from the root. -/
def searchT (st : BTState) (key : Nat) : Option Nat :=
  searchNode (heightN st.root + 1) st.root key

/-- Error raised by the indexed access operator. -/
inductive KeyErr : Type where
  | KeyNotFound
deriving DecidableEq

/-- BTree::operator[] (btree.cpp:1536): a search; on nullptr it throws
(std::out_of_range, the KeyNotFound failure of the spec).  It performs no
mutation (it only calls the const search). -/
def indexT (st : BTState) (key : Nat) : Except KeyErr Nat :=
  match searchT st key with
  | some v => Except.ok v
  | none => Except.error KeyErr.KeyNotFound

end BTreeJs

namespace BTreeJs

/-- Entries of a node read through node->leaf.entries.  For an internal node
this is a read of the inactive union member (possible only on code paths that
are unreachable in well-formed trees); it is modelled as the empty list. -/
def entriesOf : Node → List Entry
  | .leaf _ es => es
  | .internal _ _ => []

/-- Keys of a node read through node->internal.keys (empty for the
unreachable leaf pun, as for entriesOf). -/
def keysOf : Node → List Nat
  | .leaf _ _ => []
  | .internal ks _ => ks

/-- Children of a node read through node->internal.children (empty for the
unreachable leaf pun). -/
def childrenOf : Node → List Node
  | .leaf _ _ => []
  | .internal _ cs => cs

/-- Id of a leaf (0 for the unreachable internal case). -/
def idOf : Node → Nat
  | .leaf id _ => id
  | .internal _ _ => 0

/-- Outcome of the scan at the top of BTree::removeFromNode (btree.cpp:1930)
when the node is a leaf: the scan walks node->internal.keys, which through the
union aliases the entry storage.  keys.size() aliases the entry count and
keys[0] aliases entries[0].first; higher indices read indeterminate bytes.
The result states whether the scan reports an exact match: deterministic for
an empty leaf, for key <= first entry key, and for a one-entry leaf; otherwise
one oracle bit is consumed. -/
def leafPunScan (es : List Entry) (key : Nat) (g : Nat → Bool) (ctr : Nat) :
    Bool × Nat :=
  match es with
  | [] => (false, ctr)
  | e :: rest =>
      if key < e.1 then (false, ctr)
      else if ¬ e.1 < key then (true, ctr)
      else if rest.isEmpty then (false, ctr)
      else (g ctr, ctr + 1)

/-- The std::find_if plus erase of removeFromNode case A1 (btree.cpp:1940):
drop the first entry comparing equal to the key. -/
def eraseFirstMatch (es : List Entry) (key : Nat) : List Entry :=
  match es with
  | [] => []
  | e :: rest =>
      if ¬ e.1 < key ∧ ¬ key < e.1 then rest
      else e :: eraseFirstMatch rest key

/-- The loop "while (!cur->isLeaf) cur = cur->internal.children.back()" of
BTree::getPredecessor (btree.cpp:1769). -/
def downLast (fuel : Nat) (n : Node) : Node :=
  match fuel, n with
  | fuel + 1, .internal _ cs => downLast fuel (cs.getLastD dummyNode)
  | _, n => n

/-- The loop "while (!cur->isLeaf) cur = cur->internal.children.front()" of
BTree::getSuccessor (btree.cpp:1781). -/
def downFirst (fuel : Nat) (n : Node) : Node :=
  match fuel, n with
  | fuel + 1, .internal _ cs => downFirst fuel (cs.headD dummyNode)
  | _, n => n

/-- BTree::getPredecessor (btree.cpp:1769): last entry key of the rightmost
leaf under children[idx]. -/
def getPredecessor (cs : List Node) (idx : Nat) : Nat :=
  let cur := cs.getD idx dummyNode
  ((entriesOf (downLast (heightN cur) cur)).getLastD (0, 0)).1

/-- BTree::getSuccessor (btree.cpp:1781): first entry key of the leftmost
leaf under children[idx + 1]. -/
def getSuccessor (cs : List Node) (idx : Nat) : Nat :=
  let cur := cs.getD (idx + 1) dummyNode
  ((entriesOf (downFirst (heightN cur) cur)).headD (0, 0)).1

/-- BTree::borrowFromPrev (btree.cpp:1822) on the parent lists.  Leaf child:
move the last entry of the left sibling to the front of the child and set
parent.keys[idx-1] to the new front key.  Internal child: rotate the
separator down, the left sibling's last key up, and move its last child. -/
def borrowFromPrev (ks : List Nat) (cs : List Node) (idx : Nat) :
    List Nat × List Node :=
  let child := cs.getD idx dummyNode
  let left := cs.getD (idx - 1) dummyNode
  match child with
  | .leaf cid ces =>
      let stolen := (entriesOf left).getLastD (0, 0)
      let child2 := Node.leaf cid (stolen :: ces)
      let left2 := Node.leaf (idOf left) (entriesOf left).dropLast
      (ks.set (idx - 1) stolen.1, (cs.set idx child2).set (idx - 1) left2)
  | .internal cks ccs =>
      let child2 := Node.internal (ks.getD (idx - 1) 0 :: cks)
        ((childrenOf left).getLastD dummyNode :: ccs)
      let left2 := Node.internal (keysOf left).dropLast (childrenOf left).dropLast
      (ks.set (idx - 1) ((keysOf left).getLastD 0), (cs.set idx child2).set (idx - 1) left2)

/-- BTree::borrowFromNext (btree.cpp:1855).  Leaf child: move the right
sibling's first entry to the back of the child and set parent.keys[idx] to the
right sibling's new front key (read after the erase).  Internal child: rotate
the separator down, the right sibling's first key up, and move its first
child. -/
def borrowFromNext (ks : List Nat) (cs : List Node) (idx : Nat) :
    List Nat × List Node :=
  let child := cs.getD idx dummyNode
  let right := cs.getD (idx + 1) dummyNode
  match child with
  | .leaf cid ces =>
      let stolen := (entriesOf right).headD (0, 0)
      let res2 := (entriesOf right).drop 1
      let child2 := Node.leaf cid (ces ++ [stolen])
      let right2 := Node.leaf (idOf right) res2
      (ks.set idx (res2.headD (0, 0)).1, (cs.set idx child2).set (idx + 1) right2)
  | .internal cks ccs =>
      let child2 := Node.internal (cks ++ [ks.getD idx 0])
        (ccs ++ [(childrenOf right).headD dummyNode])
      let right2 := Node.internal ((keysOf right).drop 1) ((childrenOf right).drop 1)
      (ks.set idx ((keysOf right).headD 0), (cs.set idx child2).set (idx + 1) right2)

/-- BTree::mergeNodes (btree.cpp:1881) at parent index idx: fold
children[idx+1] into children[idx].  Leaf case: concatenate the entries and
restitch the leaf chain (left->nextLeaf = right->nextLeaf; the new successor,
if any, gets prevLeaf = left).  Internal case: pull the separator down and
append the right sibling's keys and children.  Then drop parent.keys[idx] and
parent.children[idx+1] and free the right node. -/
def mergeNodes (ks : List Nat) (cs : List Node) (idx : Nat) (ch : ChainSt) :
    List Nat × List Node × ChainSt :=
  let left := cs.getD idx dummyNode
  let right := cs.getD (idx + 1) dummyNode
  let p :=
    match left with
    | .leaf lid les =>
        let rid := idOf right
        let rn := lmGet ch.next rid
        let nx := lmSet ch.next lid rn
        let pv :=
          match rn with
          | some x => lmSet ch.prev x (some lid)
          | none => ch.prev
        (Node.leaf lid (les ++ entriesOf right),
         { next := nx, prev := pv, freshId := ch.freshId : ChainSt })
    | .internal lks lcs =>
        (Node.internal (lks ++ ks.getD idx 0 :: keysOf right) (lcs ++ childrenOf right), ch)
  (ks.eraseIdx idx, ((cs.set idx p.1).eraseIdx (idx + 1)), p.2)

/-- BTree::fill (btree.cpp:1793): restore the child at idx by borrowing from
a sibling holding at least s_CAPACITY keys/entries, or merge with a sibling
(the right one when it exists, otherwise the left). -/
def fill (ks : List Nat) (cs : List Node) (idx : Nat) (ch : ChainSt) :
    List Nat × List Node × ChainSt :=
  if idx > 0 ∧ nodeCount (cs.getD (idx - 1) dummyNode) ≥ CAP then
    let r := borrowFromPrev ks cs idx
    (r.1, r.2, ch)
  else if idx < ks.length ∧ nodeCount (cs.getD (idx + 1) dummyNode) ≥ CAP then
    let r := borrowFromNext ks cs idx
    (r.1, r.2, ch)
  else if idx < ks.length then mergeNodes ks cs idx ch
  else mergeNodes ks cs (idx - 1) ch

/-- BTree::removeFromNode (btree.cpp:1926).  The opening scan runs over
node->internal.keys; on a leaf this is the union pun modelled by leafPunScan.
Case A leaf: erase the first exact match.  Case A internal: replace the
routing key by the predecessor (left child count >= s_CAPACITY) or successor
(right child count >= s_CAPACITY) and recurse into that child, else merge the
two children and recurse into the merged child.  Case B: return at a leaf;
otherwise fill children[idx] when it holds fewer than s_CAPACITY keys/entries
and recurse into the corrected slot. -/
def removeFromNode (fuel : Nat) (g : Nat → Bool) (node : Node) (key : Nat)
    (ctr : Nat) (ch : ChainSt) : Node × Nat × ChainSt :=
  match fuel with
  | 0 => (node, ctr, ch)
  | fuel + 1 =>
    match node with
    | .leaf id es =>
        let s := leafPunScan es key g ctr
        if s.1 then (Node.leaf id (eraseFirstMatch es key), s.2, ch)
        else (Node.leaf id es, s.2, ch)
    | .internal ks cs =>
        let idx := lowerBoundIdx ks key
        if idx < ks.length ∧ ¬ key < ks.getD idx 0 ∧ ¬ ks.getD idx 0 < key then
          let leftChild := cs.getD idx dummyNode
          let rightChild := cs.getD (idx + 1) dummyNode
          if nodeCount leftChild ≥ CAP then
            let pred := getPredecessor cs idx
            let r := removeFromNode fuel g leftChild pred ctr ch
            (Node.internal (ks.set idx pred) (cs.set idx r.1), r.2.1, r.2.2)
          else if nodeCount rightChild ≥ CAP then
            let succ := getSuccessor cs idx
            let r := removeFromNode fuel g rightChild succ ctr ch
            (Node.internal (ks.set idx succ) (cs.set (idx + 1) r.1), r.2.1, r.2.2)
          else
            let m := mergeNodes ks cs idx ch
            let r := removeFromNode fuel g (m.2.1.getD idx dummyNode) key ctr m.2.2
            (Node.internal m.1 (m.2.1.set idx r.1), r.2.1, r.2.2)
        else
          let lastChild := idx = ks.length
          let child := cs.getD idx dummyNode
          let f :=
            if nodeCount child < CAP then fill ks cs idx ch
            else (ks, cs, ch)
          let tgt := if lastChild ∧ idx > f.1.length then idx - 1 else idx
          let r := removeFromNode fuel g (f.2.1.getD tgt dummyNode) key ctr f.2.2
          (Node.internal f.1 (f.2.1.set tgt r.1), r.2.1, r.2.2)

/-- BTree::remove (btree.cpp:1747): run removeFromNode from the root,
decrement m_Size (a size_t, so the decrement wraps modulo 2^64) and return
true, unconditionally; then collapse an internal root left with no routing
keys into its single child. -/
def removeT (g : Nat → Bool) (st : BTState) (key : Nat) (ctr : Nat) :
    Bool × BTState × Nat :=
  let r := removeFromNode (heightN st.root + 1) g st.root key ctr st.chain
  let root2 :=
    match r.1 with
    | .internal [] cs => cs.headD dummyNode
    | n => n
  (true,
   { root := root2, msize := (st.msize + (2 ^ 64 - 1)) % 2 ^ 64, chain := r.2.2 },
   r.2.1)

/-- BTree::move (btree.cpp:2244): search the source key; on nullptr return
false without touching the tree; otherwise remove the source key and insert
under the destination key, returning true.  The C++ dereferences the value
pointer after the remove has already destroyed or moved the entry it points
into; the embedding uses the value as it was at search time, which is the
only part of that undefined read any theorem below relies on. -/
def moveT (g : Nat → Bool) (st : BTState) (fromKey toKey : Nat) (ctr : Nat) :
    Bool × BTState × Nat :=
  match searchT st fromKey with
  | none => (false, st, ctr)
  | some v =>
      let r := removeT g st fromKey ctr
      let i := insertT r.2.1 toKey v
      (true, i.1, r.2.2)

/-- The loop "while (n && !n->isLeaf) n = n->internal.children.front()" of
BTree::begin (btree.cpp:2430). -/
def leftmostLeaf (fuel : Nat) (n : Node) : Node :=
  match fuel, n with
  | fuel + 1, .internal _ cs => leftmostLeaf fuel (cs.headD dummyNode)
  | _, n => n

/-- Iterator state: the m_CurrentNode pointer (none models nullptr, some id
models a pointer to the leaf with that id) and m_CurrentIndex. -/
abbrev Iter := Option Nat × Nat

/-- BTree::begin (btree.cpp:2430): descend along first children to the
leftmost leaf, index 0.  The root is never null, so the iterator always
carries that leaf (even when the tree is empty). -/
def beginIter (st : BTState) : Iter :=
  match leftmostLeaf (heightN st.root) st.root with
  | .leaf id _ => (some id, 0)
  | .internal _ _ => (none, 0)

/-- BTree::end (btree.cpp:2442): null node pointer, index 0. -/
def endIter : Iter := (none, 0)

/-- BTree::Iterator::operator== (btree.cpp:2418): compare the node pointer
and the index. -/
def iterEq (a b : Iter) : Bool :=
  a.1 == b.1 && a.2 == b.2

end BTreeJs

namespace BTreeJs

mutual
/-- Resolve a leaf pointer: find the leaf with the given id in the tree (the
C++ follows the raw pointer; the model looks the id up in the owning tree). -/
def findLeafN : Node → Nat → Option (List Entry)
  | .leaf lid es, id => if lid = id then some es else none
  | .internal _ cs, id => findLeafL cs id
def findLeafL : List Node → Nat → Option (List Entry)
  | [], _ => none
  | c :: cs, id =>
      match findLeafN c id with
      | some es => some es
      | none => findLeafL cs id
end

/-- Follow n = n->nextLeaf (btree.cpp:2192): read the nextLeaf field of the
current leaf and resolve the pointed-to leaf. -/
def hopNext (root : Node) (ch : ChainSt) (id : Nat) : Option (Nat × List Entry) :=
  match lmGet ch.next id with
  | none => none
  | some nid =>
      match findLeafN root nid with
      | some es => some (nid, es)
      | none => none

/-- Descent of both range overloads (btree.cpp:2162, 2210): at each internal
node take the child at the std::upper_bound of low over the routing keys. -/
def rangeDescend (fuel : Nat) (n : Node) (low : Nat) : Node :=
  match fuel, n with
  | fuel + 1, .internal ks cs => rangeDescend fuel (cs.getD (upperBoundIdx ks low) dummyNode) low
  | _, n => n

/-- Collection loop of range(low, high) (btree.cpp:2181): emit entries from
the current index on, returning as soon as a key exceeds high, hopping to the
next leaf when the current one is exhausted.  Fuel bounds the loop steps. -/
def collectHL (root : Node) (ch : ChainSt) (high : Nat) :
    Nat → Option (Nat × List Entry) → Nat → List Entry → List Entry
  | 0, _, _, acc => acc.reverse
  | _, none, _, acc => acc.reverse
  | fuel + 1, some (id, es), idx, acc =>
      if idx < es.length then
        let kv := es.getD idx (0, 0)
        if high < kv.1 then acc.reverse
        else collectHL root ch high fuel (some (id, es)) (idx + 1) (kv :: acc)
      else collectHL root ch high fuel (hopNext root ch id) 0 acc

/-- Collection loop of range(low, count) (btree.cpp:2229): emit until count
entries have been produced or the leaf chain ends. -/
def collectLC (root : Node) (ch : ChainSt) (count : Nat) :
    Nat → Option (Nat × List Entry) → Nat → Nat → List Entry → List Entry
  | 0, _, _, _, acc => acc.reverse
  | _, none, _, _, acc => acc.reverse
  | fuel + 1, some (id, es), idx, taken, acc =>
      if taken ≥ count then acc.reverse
      else if idx < es.length then
        collectLC root ch count fuel (some (id, es)) (idx + 1) (taken + 1)
          (es.getD idx (0, 0) :: acc)
      else collectLC root ch count fuel (hopNext root ch id) 0 taken acc

/-- Generous fuel for the collection walks: more steps than there are entries
plus leaves in the whole tree. -/
def walkFuel (n : Node) : Nat :=
  (inorderN n).length + (leafIdsN n).length + 1

/-- BTree::range(low, high) (btree.cpp:2151): descend by upper_bound to the
leaf that could contain low, lower_bound inside it, then collect forward
until a key exceeds high.  The function only reads the tree. -/
def rangeHL (st : BTState) (low high : Nat) : List Entry :=
  match rangeDescend (heightN st.root) st.root low with
  | .leaf id es =>
      let idx := (es.takeWhile (fun e => decide (e.1 < low))).length
      collectHL st.root st.chain high (walkFuel st.root) (some (id, es)) idx []
  | .internal _ _ => []

/-- BTree::range(low, count) (btree.cpp:2199): empty for count = 0, else the
same descent and start, collecting up to count entries. -/
def rangeLC (st : BTState) (low count : Nat) : List Entry :=
  if count = 0 then []
  else
    match rangeDescend (heightN st.root) st.root low with
    | .leaf id es =>
        let idx := (es.takeWhile (fun e => decide (e.1 < low))).length
        collectLC st.root st.chain count (walkFuel st.root) (some (id, es)) idx 0 []
    | .internal _ _ => []

/-- A public mutating operation of the tree. -/
inductive Op : Type where
  | ins (k v : Nat)
  | del (k : Nat)

/-- Apply one public operation (threading the oracle counter used by the
indeterminate reads of remove). -/
def applyOp (g : Nat → Bool) : BTState × Nat → Op → BTState × Nat
  | (st, ctr), .ins k v => ((insertT st k v).1, ctr)
  | (st, ctr), .del k =>
      let r := removeT g st k ctr
      (r.2.1, r.2.2)

/-- Apply a sequence of public operations to the freshly constructed tree. -/
def applyOps (g : Nat → Bool) (ops : List Op) : BTState × Nat :=
  ops.foldl (applyOp g) (initState, 0)

end BTreeJs

namespace BTreeJs

/-- Concrete tree holding the single entry (1, 10): insert 1 into the fresh
tree. -/
def exTree1 : BTState := (insertT initState 1 10).1

/-- Concrete tree built by inserting keys 0..63 (value = key) in order into
the fresh tree.  The 64th insert finds the root leaf full (63 entries =
s_MAX_KEYS), splits it into leaves 0..31 and 32..62 and promotes the
separator 32, so the root becomes internal with routing keys [32]. -/
def exTree64 : BTState := (List.range 64).foldl (fun s k => (insertT s k k).1) initState

/-- Claim C1, what the code actually does at the failing input: on the tree
holding only key 1, remove(2) erases nothing (key 2 is absent, and the scan
outcome is determined, so this holds for every oracle), yet it still returns
true and decrements m_Size from 1 to 0 (btree.cpp:1755, 1766).  The claim
(and the documentation of BTree::remove in btree.h) require false and an
unchanged size. -/
theorem c1_remove_always_true_and_decrements : ∀ g : Nat → Bool,
    2 ∉ keysOfState exTree1 ∧ exTree1.msize = 1 ∧
    removeT g exTree1 2 0 =
      (true, { root := exTree1.root, msize := 0, chain := exTree1.chain }, 0) :=
  fun _ => ⟨by decide, rfl, rfl⟩

set_option maxRecDepth 40000 in
/-- Claim C2, what the code actually does at the failing input: after
inserting keys 0..63 into the fresh tree (no removal at all), key 32 is
stored, but search(32) returns nullptr: the promoted separator 32 equals the
stored key, and the lower_bound descent of BTree::search (btree.cpp:1722)
routes equal keys into the left child, which holds only keys < 32.  The
insert/search round-trip law fails. -/
theorem c2_search_misses_separator_key :
    32 ∈ keysOfState exTree64 ∧ searchT exTree64 32 = none := by
  constructor
  · decide
  · decide

set_option maxRecDepth 40000 in
/-- Claim C3, what the code actually does at the failing input: key 32 is
present in exTree64 (with value 32), but insert(32, 99) returns true,
increments Tree.size from 64 to 65 and creates a second entry with key 32:
the lower_bound descent of insertNonFull routes key 32 into the left leaf,
which holds only keys < 32, so the exact-match check never sees the existing
entry and nothing is overwritten in place.  The claim requires false and an
unchanged size.  (search(32) afterwards does yield 99, but only because the
fresh duplicate sits in the left leaf where the descent looks; the original
entry (32, 32) is still stored.) -/
theorem c3_insert_duplicates_separator_key :
    32 ∈ keysOfState exTree64 ∧
    (insertT exTree64 32 99).2 = true ∧
    (insertT exTree64 32 99).1.msize = exTree64.msize + 1 ∧
    (keysOfState (insertT exTree64 32 99).1).count 32 = 2 ∧
    (inorderN (insertT exTree64 32 99).1.root).count (32, 32) = 1 := by
  refine ⟨by decide, by decide, by decide, by decide, by decide⟩

set_option maxRecDepth 40000 in
/-- Claim C6, what the code actually does at the failing input: key 32 is
present in exTree64, yet the indexed access operator fails with KeyNotFound,
because operator[] (btree.cpp:1536) delegates to search, which misses keys
equal to a promoted separator.  The claim requires a reference to the stored
value whenever the key is present.  (The absent-key half of the claim does
hold: operator[] only calls the const search and never inserts.) -/
theorem c6_indexed_access_fails_on_present_key :
    32 ∈ keysOfState exTree64 ∧
    indexT exTree64 32 = Except.error KeyErr.KeyNotFound := by
  refine ⟨by decide, by rfl⟩

/-- Claim C7 is false on the code: on the freshly constructed (empty) tree,
begin() descends to the root leaf, which exists and is non-null, and returns
an iterator holding that leaf with index 0 (btree.cpp:2430); end() holds the
null pointer with index 0.  Iterator equality compares the node pointer and
index, so begin() and end() compare unequal on the empty tree. -/
theorem c7_counterexample_begin_ne_end_on_empty :
    initState.msize = 0 ∧
    iterEq (beginIter initState) endIter = false ∧
    beginIter initState ≠ endIter := by
  refine ⟨rfl, rfl, by decide⟩

/-- Claim C7 amended: end() is the null leaf pointer with index 0, as
claimed, but on the empty tree begin() is an iterator on the (empty) root
leaf with index 0, which does not compare equal to end(). -/
theorem c7_amended_begin_on_empty_tree :
    beginIter initState = (some 0, 0) ∧
    endIter = ((none : Option Nat), 0) ∧
    iterEq (beginIter initState) endIter = false := by
  refine ⟨rfl, rfl, rfl⟩

end BTreeJs

namespace BTreeJs

theorem findInLeaf_mem {es : List Entry} {key v : Nat}
    (h : findInLeaf es key = some v) : key ∈ es.map Prod.fst := by
  induction es with
  | nil => simp [findInLeaf] at h
  | cons e rest ih =>
      by_cases h1 : ¬ e.1 < key ∧ ¬ key < e.1
      · have : e.1 = key := le_antisymm (not_lt.mp h1.2) (not_lt.mp h1.1)
        simp [this]
      · rw [findInLeaf, if_neg h1] at h
        by_cases h2 : key < e.1
        · rw [if_pos h2] at h; cases h
        · rw [if_neg h2] at h
          simpa using Or.inr (ih h)

theorem inorderN_subset_inorderL {c : Node} {cs : List Node}
    (h : c ∈ cs) : ∀ e ∈ inorderN c, e ∈ inorderL cs := by
  induction cs with
  | nil => cases h
  | cons d ds ih =>
      intro e he
      rcases List.mem_cons.mp h with h | h
      · subst h
        simp only [inorderL]
        exact List.mem_append_left _ he
      · simp only [inorderL]
        exact List.mem_append_right _ (ih h e he)

theorem searchNode_mem {key v : Nat} :
    ∀ (fuel : Nat) (n : Node), searchNode fuel n key = some v →
      key ∈ (inorderN n).map Prod.fst := by
  intro fuel
  induction fuel with
  | zero =>
      intro n h
      cases n with
      | leaf id es => exact findInLeaf_mem h
      | internal ks cs => simp [searchNode] at h
  | succ fuel ih =>
      intro n h
      cases n with
      | leaf id es => exact findInLeaf_mem h
      | internal ks cs =>
          rw [searchNode] at h
          by_cases hlt : lowerBoundIdx ks key < cs.length
          · have hmem : cs.getD (lowerBoundIdx ks key) dummyNode ∈ cs := by
              rw [List.getD_eq_getElem _ _ hlt]
              exact List.getElem_mem hlt
            have := ih _ h
            rcases List.mem_map.mp this with ⟨e, he, hk⟩
            exact List.mem_map.mpr ⟨e, inorderN_subset_inorderL hmem e he, hk⟩
          · rw [List.getD_eq_default _ _ (not_lt.mp hlt)] at h
            simp [dummyNode, searchNode, findInLeaf] at h

theorem searchT_mem {st : BTState} {key v : Nat}
    (h : searchT st key = some v) : key ∈ keysOfState st :=
  searchNode_mem _ _ h

/-- Claim C10: BTree::move (btree.cpp:2244) first searches the source key; on
nullptr it returns false having performed no mutation at all (search is
const), and it can return true only when an entry with the source key exists
(search only ever reports keys that are stored).  The parenthetical clause of
the claim, that the mutation removes the source key and re-inserts its value,
is the remove-then-insert call pair visible in moveT; note that the C++ reads
the value through a pointer that remove has already invalidated, so what is
inserted beyond this model is not defined by the source. -/
theorem c10_move_returns_false_and_leaves_tree_unchanged_when_absent :
    ∀ (g : Nat → Bool) (st : BTState) (fromKey toKey ctr : Nat),
    (fromKey ∉ keysOfState st → moveT g st fromKey toKey ctr = (false, st, ctr)) ∧
    ((moveT g st fromKey toKey ctr).1 = true → fromKey ∈ keysOfState st) := by
  intro g st fromKey toKey ctr
  constructor
  · intro habs
    rw [moveT]
    cases h : searchT st fromKey with
    | none => rfl
    | some v => exact absurd (searchT_mem h) habs
  · intro htrue
    rw [moveT] at htrue
    cases h : searchT st fromKey with
    | none => rw [h] at htrue; cases htrue
    | some v => exact searchT_mem h

/-- Witness for C10 at a concrete input: moving the absent key 5 in the
one-entry tree returns false and changes nothing. -/
theorem c10_move_witness :
    moveT (fun _ => false) exTree1 5 7 0 = (false, exTree1, 0) :=
  (c10_move_returns_false_and_leaves_tree_unchanged_when_absent
    (fun _ => false) exTree1 5 7 0).1 (by decide)

end BTreeJs

namespace BTreeJs

mutual
/-- The leaves of the subtree, in order, as (id, entries) pairs. -/
def leavesN : Node → List (Nat × List Entry)
  | .leaf id es => [(id, es)]
  | .internal _ cs => leavesL cs
def leavesL : List Node → List (Nat × List Entry)
  | [] => []
  | c :: cs => leavesN c ++ leavesL cs
end

/-- Entries of a list of leaves, concatenated. -/
def joinEnts (L : List (Nat × List Entry)) : List Entry :=
  (L.map Prod.snd).flatten

/-- Decidable strict sortedness of a key list. -/
def strictSorted : List Nat → Bool
  | [] => true
  | [_] => true
  | a :: b :: rest => a < b && strictSorted (b :: rest)

/-- Bound check: lo <= k (when lo is present) and k < hi (when hi is
present).  The spec phrases invariant 3 this way: every key of child[i] is
strictly below keys[i] and every key of child[i+1] is at least keys[i]. -/
def inBnd (lo hi : Option Nat) (k : Nat) : Bool :=
  (match lo with
   | none => true
   | some a => decide (a ≤ k)) &&
  (match hi with
   | none => true
   | some b => decide (k < b))

mutual
/-- Spec invariants 1-4 and 7 of the data model (well-formed search
structure): leaf entries strictly sorted and within the bounds; an internal
node with K routing keys has exactly K+1 children; child i is bounded above
(strictly) by routing key i and child i+1 is bounded below (inclusively) by
it; routing keys lie within the enclosing bounds. -/
def wfB : Node → Option Nat → Option Nat → Bool
  | .leaf _ es, lo, hi =>
      strictSorted (es.map Prod.fst) && (es.map Prod.fst).all (inBnd lo hi)
  | .internal ks cs, lo, hi => wfCs ks cs lo hi
def wfCs : List Nat → List Node → Option Nat → Option Nat → Bool
  | [], [c], lo, hi => wfB c lo hi
  | k :: ks, c :: cs, lo, hi =>
      inBnd lo hi k && wfB c lo (some k) && wfCs ks cs (some k) hi
  | _, _, _, _ => false
end

end BTreeJs

namespace BTreeJs

/-- The nextLeaf map realises the list of leaf ids as a chain: each id maps
to the following one and the last maps to null. -/
def chainNextOk (m : LinkMap) : List Nat → Bool
  | [] => true
  | [a] => lmGet m a == none
  | a :: b :: rest => lmGet m a == some b && chainNextOk m (b :: rest)

/-- Hypothesis bundle for the range claims: the resting-state invariants of
the spec on which the range walks rely, namely the search-structure
invariants (wfB), a nextLeaf chain that links the leaves left to right, and
distinct leaf ids (distinct leaf addresses), so that following a leaf
pointer is unambiguous in the model. -/
def validSearchState (st : BTState) : Bool :=
  wfB st.root none none &&
  chainNextOk st.chain.next (leafIdsN st.root) &&
  decide (leafIdsN st.root).Nodup

theorem inorder_eq_joinEnts : ∀ n : Node, inorderN n = joinEnts (leavesN n) := by
  refine @inorderN.induct (fun n => inorderN n = joinEnts (leavesN n))
    (fun cs => inorderL cs = joinEnts (leavesL cs)) ?_ ?_ ?_ ?_
  · intro id es
    simp [inorderN, leavesN, joinEnts]
  · intro ks cs ih
    simpa [inorderN, leavesN] using ih
  · simp [inorderL, leavesL, joinEnts]
  · intro c cs ih1 ih2
    simp [inorderL, leavesL, joinEnts, ih1, ih2]

theorem inorderL_eq_joinEnts : ∀ cs : List Node, inorderL cs = joinEnts (leavesL cs) := by
  intro cs
  induction cs with
  | nil => simp [inorderL, leavesL, joinEnts]
  | cons c cs ih =>
      simp [inorderL, leavesL, joinEnts, ih, inorder_eq_joinEnts c]

theorem leafIds_eq_map_fst : ∀ n : Node, leafIdsN n = (leavesN n).map Prod.fst := by
  refine @leafIdsN.induct (fun n => leafIdsN n = (leavesN n).map Prod.fst)
    (fun cs => leafIdsL cs = (leavesL cs).map Prod.fst) ?_ ?_ ?_ ?_
  · intro id es
    simp [leafIdsN, leavesN]
  · intro ks cs ih
    simpa [leafIdsN, leavesN] using ih
  · simp [leafIdsL, leavesL]
  · intro c cs ih1 ih2
    simp [leafIdsL, leavesL, ih1, ih2]

theorem leafIdsL_eq_map_fst : ∀ cs : List Node, leafIdsL cs = (leavesL cs).map Prod.fst := by
  intro cs
  induction cs with
  | nil => simp [leafIdsL, leavesL]
  | cons c cs ih => simp [leafIdsL, leavesL, ih, leafIds_eq_map_fst c]

theorem strictSorted_iff : ∀ l : List Nat, strictSorted l = true ↔ l.Pairwise (· < ·) := by
  intro l
  induction l with
  | nil => simp [strictSorted]
  | cons a l ih =>
      cases l with
      | nil => simp [strictSorted]
      | cons b r =>
          rw [List.pairwise_cons]
          constructor
          · intro h
            have h1 : a < b := by
              have := (Bool.and_eq_true _ _).mp h
              exact of_decide_eq_true this.1
            have h2 := ih.mp ((Bool.and_eq_true _ _).mp h).2
            refine ⟨?_, h2⟩
            intro x hx
            rcases List.mem_cons.mp hx with rfl | hx
            · exact h1
            · have hb := (List.pairwise_cons.mp h2).1 x hx
              exact lt_trans h1 hb
          · intro ⟨h1, h2⟩
            have : strictSorted (b :: r) = true := ih.mpr h2
            simp [strictSorted, this]
            exact h1 b (List.mem_cons_self b r)

theorem heightN_le_of_mem {c : Node} {cs : List Node} (h : c ∈ cs) :
    heightN c ≤ heightL cs := by
  induction cs with
  | nil => cases h
  | cons d ds ih =>
      rcases List.mem_cons.mp h with rfl | h
      · simp [heightL]
      · calc heightN c ≤ heightL ds := ih h
          _ ≤ heightL (d :: ds) := by simp [heightL]

end BTreeJs

namespace BTreeJs

theorem inBnd_spec (lo hi : Option Nat) (k : Nat) :
    inBnd lo hi k = true ↔
      ((∀ a, lo = some a → a ≤ k) ∧ (∀ b, hi = some b → k < b)) := by
  cases lo with
  | none => cases hi with
    | none => simp [inBnd]
    | some b => simp [inBnd]
  | some a => cases hi with
    | none => simp [inBnd]
    | some b => simp [inBnd, and_comm]

theorem wfB_sorted_bounds :
    ∀ (n : Node) (lo hi : Option Nat), wfB n lo hi = true →
      ((inorderN n).map Prod.fst).Pairwise (· < ·) ∧
      (∀ k ∈ (inorderN n).map Prod.fst, inBnd lo hi k = true) := by
  refine @wfB.induct
    (fun n lo hi => wfB n lo hi = true →
      ((inorderN n).map Prod.fst).Pairwise (· < ·) ∧
      (∀ k ∈ (inorderN n).map Prod.fst, inBnd lo hi k = true))
    (fun ks cs lo hi => wfCs ks cs lo hi = true →
      ((inorderL cs).map Prod.fst).Pairwise (· < ·) ∧
      (∀ k ∈ (inorderL cs).map Prod.fst, inBnd lo hi k = true) ∧
      cs.length = ks.length + 1)
    ?_ ?_ ?_ ?_ ?_
  · intro id es lo hi h
    rw [wfB, Bool.and_eq_true] at h
    constructor
    · exact (strictSorted_iff _).mp h.1
    · intro k hk
      simpa using List.all_eq_true.mp h.2 k (by simpa using hk)
  · intro ks cs lo hi ih h
    rw [wfB] at h
    obtain ⟨h1, h2, _⟩ := ih h
    exact ⟨by simpa [inorderN] using h1, by simpa [inorderN] using h2⟩
  · intro c lo hi ih h
    rw [wfCs] at h
    obtain ⟨h1, h2⟩ := ih h
    refine ⟨by simpa [inorderL] using h1, by simpa [inorderL] using h2, rfl⟩
  · intro k ks c cs lo hi ih1 ih2 h
    rw [wfCs, Bool.and_eq_true, Bool.and_eq_true] at h
    obtain ⟨⟨hk, hc⟩, hrest⟩ := h
    obtain ⟨s1, b1⟩ := ih1 hc
    obtain ⟨s2, b2, hlen⟩ := ih2 hrest
    have hkb := (inBnd_spec lo hi k).mp hk
    have hcross : ∀ a ∈ (inorderN c).map Prod.fst,
        ∀ b ∈ (inorderL cs).map Prod.fst, a < b := by
      intro a ha b hb
      have hak : a < k := ((inBnd_spec _ _ _).mp (b1 a ha)).2 k rfl
      have hkb2 : k ≤ b := ((inBnd_spec _ _ _).mp (b2 b hb)).1 k rfl
      exact lt_of_lt_of_le hak hkb2
    constructor
    · have : (inorderL (c :: cs)).map Prod.fst =
          (inorderN c).map Prod.fst ++ (inorderL cs).map Prod.fst := by
        simp [inorderL]
      rw [this, List.pairwise_append]
      exact ⟨s1, s2, hcross⟩
    refine ⟨?_, by simp [hlen]⟩
    intro x hx
    have : x ∈ (inorderN c).map Prod.fst ∨ x ∈ (inorderL cs).map Prod.fst := by
      simpa [inorderL] using hx
    rcases this with hx | hx
    · have hxs := (inBnd_spec lo (some k) x).mp (b1 x hx)
      refine (inBnd_spec lo hi x).mpr ⟨hxs.1, ?_⟩
      intro b hb
      exact lt_trans (hxs.2 k rfl) (hkb.2 b hb)
    · have hxs := (inBnd_spec (some k) hi x).mp (b2 x hx)
      refine (inBnd_spec lo hi x).mpr ⟨?_, hxs.2⟩
      intro a ha
      exact le_trans (hkb.1 a ha) (hxs.1 k rfl)
  · intro t x x1 x2 hne1 hne2 h
    exfalso
    cases x with
    | nil =>
        cases t with
        | nil => simp [wfCs] at h
        | cons c cs =>
            cases cs with
            | nil => exact hne1 c rfl rfl
            | cons d ds => simp [wfCs] at h
    | cons k ks =>
        cases t with
        | nil => simp [wfCs] at h
        | cons c cs => exact hne2 k ks c cs rfl rfl

end BTreeJs

namespace BTreeJs

theorem upperBoundIdx_nil (low : Nat) : upperBoundIdx [] low = 0 := rfl

theorem upperBoundIdx_cons (k low : Nat) (ks : List Nat) :
    upperBoundIdx (k :: ks) low =
      if low < k then 0 else upperBoundIdx ks low + 1 := by
  by_cases h : low < k
  · simp [upperBoundIdx, List.takeWhile, h]
  · simp [upperBoundIdx, List.takeWhile, h]

theorem lowerBoundIdx_nil (key : Nat) : lowerBoundIdx [] key = 0 := rfl

theorem lowerBoundIdx_cons (k key : Nat) (ks : List Nat) :
    lowerBoundIdx (k :: ks) key =
      if k < key then lowerBoundIdx ks key + 1 else 0 := by
  by_cases h : k < key
  · simp [lowerBoundIdx, List.takeWhile, h]
  · simp [lowerBoundIdx, List.takeWhile, h]

theorem wfCs_length : ∀ (ks : List Nat) (cs : List Node) (lo hi : Option Nat),
    wfCs ks cs lo hi = true → cs.length = ks.length + 1 := by
  intro ks
  induction ks with
  | nil =>
      intro cs lo hi h
      match cs with
      | [] => simp [wfCs] at h
      | [c] => rfl
      | c :: d :: ds => simp [wfCs] at h
  | cons k ks ih =>
      intro cs lo hi h
      match cs with
      | [] => simp [wfCs] at h
      | c :: cs =>
          rw [wfCs, Bool.and_eq_true, Bool.and_eq_true] at h
          simp [ih cs (some k) hi h.2]

theorem wfB_internal_eq (ks : List Nat) (cs : List Node) (lo hi : Option Nat) :
    wfB (Node.internal ks cs) lo hi = wfCs ks cs lo hi := by
  rw [wfB]

theorem leavesL_append (as bs : List Node) :
    leavesL (as ++ bs) = leavesL as ++ leavesL bs := by
  induction as with
  | nil => simp [leavesL]
  | cons a as ih => simp [leavesL, ih]

theorem inorderL_append (as bs : List Node) :
    inorderL (as ++ bs) = inorderL as ++ inorderL bs := by
  induction as with
  | nil => simp [inorderL]
  | cons a as ih => simp [inorderL, ih]

theorem wfCs_descend (low : Nat) :
    ∀ (ks : List Nat) (cs : List Node) (lo hi : Option Nat),
      wfCs ks cs lo hi = true →
      ∃ csA c csB loC hiC,
        cs = csA ++ c :: csB ∧ csA.length = upperBoundIdx ks low ∧
        wfB c loC hiC = true ∧
        (∀ e ∈ inorderL csA, e.1 < low) ∧
        (∀ e ∈ inorderL csB, low < e.1) := by
  intro ks
  induction ks with
  | nil =>
      intro cs lo hi h
      match cs with
      | [] => simp [wfCs] at h
      | [c] =>
          exact ⟨[], c, [], lo, hi, rfl, rfl, h, by simp [inorderL], by simp [inorderL]⟩
      | c :: d :: ds => simp [wfCs] at h
  | cons k ks ih =>
      intro cs lo hi h
      match cs with
      | [] => simp [wfCs] at h
      | c :: cs =>
          rw [wfCs, Bool.and_eq_true, Bool.and_eq_true] at h
          obtain ⟨⟨hk, hc⟩, hrest⟩ := h
          by_cases hlow : low < k
          · refine ⟨[], c, cs, lo, some k, rfl, ?_, hc, by simp [inorderL], ?_⟩
            · simp [upperBoundIdx_cons, hlow]
            · intro e he
              have hwfi : wfB (Node.internal ks cs) (some k) hi = true := by
                rw [wfB_internal_eq]; exact hrest
              have hb := (wfB_sorted_bounds (Node.internal ks cs) (some k) hi hwfi).2
              have : e.1 ∈ (inorderN (Node.internal ks cs)).map Prod.fst := by
                rw [inorderN]
                exact List.mem_map.mpr ⟨e, he, rfl⟩
              have := ((inBnd_spec _ _ _).mp (hb _ this)).1 k rfl
              exact lt_of_lt_of_le hlow this
          · obtain ⟨csA, c2, csB, loC, hiC, hcs, hlen, hwf, hA, hB⟩ :=
              ih cs (some k) hi hrest
            refine ⟨c :: csA, c2, csB, loC, hiC, by simp [hcs], ?_, hwf, ?_, hB⟩
            · simp [upperBoundIdx_cons, hlow, hlen]
            · intro e he
              rw [inorderL] at he
              rcases List.mem_append.mp he with he | he
              · have hb := (wfB_sorted_bounds c lo (some k) hc).2
                have : e.1 ∈ (inorderN c).map Prod.fst :=
                  List.mem_map.mpr ⟨e, he, rfl⟩
                have := ((inBnd_spec _ _ _).mp (hb _ this)).2 k rfl
                exact lt_of_lt_of_le this (not_lt.mp hlow)
              · exact hA e he

end BTreeJs

namespace BTreeJs

theorem getD_append_length {α : Type} (as : List α) (b : α) (bs : List α) (d : α) :
    (as ++ b :: bs).getD as.length d = b := by
  induction as with
  | nil => rfl
  | cons a as ih => simpa using ih

theorem joinEnts_append (xs ys : List (Nat × List Entry)) :
    joinEnts (xs ++ ys) = joinEnts xs ++ joinEnts ys := by
  simp [joinEnts]

theorem rangeDescend_spec (low : Nat) :
    ∀ (fuel : Nat) (n : Node) (lo hi : Option Nat),
      wfB n lo hi = true → heightN n ≤ fuel →
      ∃ id es A B, rangeDescend fuel n low = Node.leaf id es ∧
        leavesN n = A ++ (id, es) :: B ∧
        (∀ e ∈ joinEnts A, e.1 < low) ∧
        (∀ e ∈ joinEnts B, low < e.1) := by
  intro fuel
  induction fuel with
  | zero =>
      intro n lo hi hwf hh
      match n with
      | .leaf id es =>
          exact ⟨id, es, [], [], rfl, rfl, by simp [joinEnts], by simp [joinEnts]⟩
      | .internal ks cs => simp [heightN] at hh
  | succ fuel ih =>
      intro n lo hi hwf hh
      match n with
      | .leaf id es =>
          exact ⟨id, es, [], [], rfl, rfl, by simp [joinEnts], by simp [joinEnts]⟩
      | .internal ks cs =>
          rw [wfB_internal_eq] at hwf
          obtain ⟨csA, c, csB, loC, hiC, hcs, hlen, hwfc, hA, hB⟩ :=
            wfCs_descend low ks cs lo hi hwf
          have hgetD : cs.getD (upperBoundIdx ks low) dummyNode = c := by
            rw [hcs, ← hlen]
            exact getD_append_length csA c csB dummyNode
          have hmem : c ∈ cs := by
            rw [hcs]; exact List.mem_append_right _ (List.mem_cons_self _ _)
          have hhc : heightN c ≤ fuel := by
            have h1 : heightN c ≤ heightL cs := heightN_le_of_mem hmem
            have h2 : heightL cs + 1 ≤ fuel + 1 := by
              simpa [heightN] using hh
            omega
          obtain ⟨id, es, A2, B2, hdesc, hleaves, hA2, hB2⟩ :=
            ih c loC hiC hwfc hhc
          refine ⟨id, es, leavesL csA ++ A2, B2 ++ leavesL csB, ?_, ?_, ?_, ?_⟩
          · rw [rangeDescend, hgetD]; exact hdesc
          · have : leavesN (Node.internal ks cs) = leavesL cs := rfl
            rw [this, hcs, leavesL_append]
            simp only [leavesL, hleaves]
            simp
          · intro e he
            rw [joinEnts_append] at he
            rcases List.mem_append.mp he with he | he
            · exact hA e (by rwa [inorderL_eq_joinEnts])
            · exact hA2 e he
          · intro e he
            rw [joinEnts_append] at he
            rcases List.mem_append.mp he with he | he
            · exact hB2 e he
            · exact hB e (by rwa [inorderL_eq_joinEnts])

end BTreeJs

namespace BTreeJs

theorem chainNextOk_at (m : LinkMap) :
    ∀ (P : List Nat) (a : Nat) (Q : List Nat),
      chainNextOk m (P ++ a :: Q) = true → lmGet m a = Q.head? := by
  intro P
  induction P with
  | nil =>
      intro a Q h
      cases Q with
      | nil =>
          rw [List.nil_append, chainNextOk] at h
          simpa using eq_of_beq h
      | cons b Q2 =>
          rw [List.nil_append, chainNextOk, Bool.and_eq_true] at h
          simpa using eq_of_beq h.1
  | cons p P2 ih =>
      intro a Q h
      cases hP : P2 ++ a :: Q with
      | nil => exact absurd hP (by simp)
      | cons x rest =>
          rw [List.cons_append, hP, chainNextOk, Bool.and_eq_true] at h
          have := h.2
          rw [← hP] at this
          exact ih a Q this

theorem findLeafN_some_imp_mem :
    ∀ (n : Node) (id : Nat) (es : List Entry),
      findLeafN n id = some es → id ∈ leafIdsN n := by
  refine @findLeafN.induct
    (fun n id => ∀ es, findLeafN n id = some es → id ∈ leafIdsN n)
    (fun cs id => ∀ es, findLeafL cs id = some es → id ∈ leafIdsL cs)
    ?_ ?_ ?_ ?_ ?_ ?_
  · intro les id es h
    simp [leafIdsN]
  · intro lid les id hne es h
    rw [findLeafN, if_neg hne] at h
    cases h
  · intro ks cs id ih es h
    rw [findLeafN] at h
    exact ih es h
  · intro id es h
    rw [findLeafL] at h
    cases h
  · intro c cs id es2 hc ih es h
    simp only [leafIdsL, List.mem_append]
    exact Or.inl (ih es2 hc)
  · intro c cs id hc ih1 ih2 es h
    rw [findLeafL, hc] at h
    simp only [leafIdsL, List.mem_append]
    exact Or.inr (ih2 es h)

theorem findLeafN_of_mem :
    ∀ (n : Node) (id : Nat) (es : List Entry),
      (id, es) ∈ leavesN n → (leafIdsN n).Nodup → findLeafN n id = some es := by
  refine @findLeafN.induct
    (fun n id => ∀ es, (id, es) ∈ leavesN n → (leafIdsN n).Nodup →
      findLeafN n id = some es)
    (fun cs id => ∀ es, (id, es) ∈ leavesL cs → (leafIdsL cs).Nodup →
      findLeafL cs id = some es)
    ?_ ?_ ?_ ?_ ?_ ?_
  · intro les id es hmem _
    rw [leavesN] at hmem
    have h := List.mem_singleton.mp hmem
    rw [Prod.mk.injEq] at h
    rw [findLeafN, if_pos rfl, h.2]
  · intro lid les id hne es hmem _
    rw [leavesN] at hmem
    have h := List.mem_singleton.mp hmem
    rw [Prod.mk.injEq] at h
    exact absurd h.1.symm hne
  · intro ks cs id ih es hmem hnd
    rw [findLeafN]
    exact ih es hmem hnd
  · intro id es hmem _
    rw [leavesL] at hmem
    cases hmem
  · intro c cs id es2 hc ih es hmem hnd
    rw [leavesL, List.mem_append] at hmem
    have hnd2 : (leafIdsN c ++ leafIdsL cs).Nodup := by
      rw [leafIdsL] at hnd; exact hnd
    rw [findLeafL, hc]
    rcases hmem with hmem | hmem
    · have := ih es hmem (List.Nodup.of_append_left hnd2)
      rw [hc] at this
      exact this
    · exfalso
      have hin1 : id ∈ leafIdsL cs := by
        rw [leafIdsL_eq_map_fst]
        exact List.mem_map.mpr ⟨(id, es), hmem, rfl⟩
      have hin2 : id ∈ leafIdsN c := findLeafN_some_imp_mem c id es2 hc
      exact (List.disjoint_of_nodup_append hnd2) hin2 hin1
  · intro c cs id hc ih1 ih2 es hmem hnd
    rw [leavesL, List.mem_append] at hmem
    have hnd2 : (leafIdsN c ++ leafIdsL cs).Nodup := by
      rw [leafIdsL] at hnd; exact hnd
    rw [findLeafL, hc]
    rcases hmem with hmem | hmem
    · have := ih1 es hmem (List.Nodup.of_append_left hnd2)
      rw [hc] at this
      cases this
    · exact ih2 es hmem (List.Nodup.of_append_right hnd2)

end BTreeJs

namespace BTreeJs

theorem hopNext_spec (root : Node) (ch : ChainSt)
    (hchain : chainNextOk ch.next ((leavesN root).map Prod.fst) = true)
    (hnd : ((leavesN root).map Prod.fst).Nodup)
    (A : List (Nat × List Entry)) (id : Nat) (es : List Entry)
    (B : List (Nat × List Entry)) (hdec : leavesN root = A ++ (id, es) :: B) :
    hopNext root ch id =
      (match B with
       | [] => none
       | (id2, es2) :: _ => some (id2, es2)) := by
  have hshape : (leavesN root).map Prod.fst =
      A.map Prod.fst ++ id :: B.map Prod.fst := by
    rw [hdec]; simp
  have hget : lmGet ch.next id = (B.map Prod.fst).head? := by
    rw [hshape] at hchain
    exact chainNextOk_at ch.next (A.map Prod.fst) id (B.map Prod.fst) hchain
  cases B with
  | nil =>
      rw [hopNext, hget]
      rfl
  | cons p B2 =>
      obtain ⟨id2, es2⟩ := p
      have hmem : (id2, es2) ∈ leavesN root := by
        rw [hdec]
        exact List.mem_append_right _ (List.mem_cons_of_mem _ (List.mem_cons_self _ _))
      have hfind : findLeafN root id2 = some es2 := by
        refine findLeafN_of_mem root id2 es2 hmem ?_
        rw [leafIds_eq_map_fst]
        exact hnd
      rw [hopNext, hget]
      simp [hfind]

theorem collectHL_none (root : Node) (ch : ChainSt) (high : Nat) :
    ∀ (fuel idx : Nat) (acc : List Entry),
      collectHL root ch high fuel none idx acc = acc.reverse := by
  intro fuel idx acc
  cases fuel with
  | zero => rfl
  | succ fuel => rfl

theorem collectHL_spec (root : Node) (ch : ChainSt) (high : Nat)
    (hchain : chainNextOk ch.next ((leavesN root).map Prod.fst) = true)
    (hnd : ((leavesN root).map Prod.fst).Nodup) :
    ∀ (fuel : Nat) (A : List (Nat × List Entry)) (id : Nat) (es : List Entry)
      (B : List (Nat × List Entry)) (idx : Nat) (acc : List Entry),
      leavesN root = A ++ (id, es) :: B →
      es.length - idx + (joinEnts B).length + B.length + 1 ≤ fuel →
      collectHL root ch high fuel (some (id, es)) idx acc =
        acc.reverse ++
          (es.drop idx ++ joinEnts B).takeWhile (fun e => decide (e.1 ≤ high)) := by
  intro fuel
  induction fuel with
  | zero =>
      intro A id es B idx acc hdec hfuel
      omega
  | succ fuel ih =>
      intro A id es B idx acc hdec hfuel
      rw [collectHL]
      by_cases hidx : idx < es.length
      · rw [if_pos hidx]
        simp only [List.getD_eq_getElem es (0, 0) hidx]
        have hdrop : es.drop idx = es[idx] :: es.drop (idx + 1) :=
          List.drop_eq_getElem_cons hidx
        by_cases hhigh : high < es[idx].1
        · rw [if_pos hhigh, hdrop, List.cons_append, List.takeWhile_cons]
          have hfalse : decide (es[idx].1 ≤ high) = false := by
            simp [Nat.not_le.mpr hhigh]
          rw [hfalse]
          simp
        · rw [if_neg hhigh]
          rw [ih A id es B (idx + 1) (es[idx] :: acc) hdec (by omega)]
          rw [hdrop, List.cons_append, List.takeWhile_cons]
          have htrue : decide (es[idx].1 ≤ high) = true := by
            simp [Nat.not_lt.mp hhigh]
          rw [htrue]
          simp
      · rw [if_neg hidx]
        have hdrop : es.drop idx = [] :=
          List.drop_eq_nil_of_le (Nat.not_lt.mp hidx)
        rw [hopNext_spec root ch hchain hnd A id es B hdec]
        cases B with
        | nil =>
            rw [collectHL_none]
            simp [hdrop, joinEnts]
        | cons p B2 =>
            obtain ⟨id2, es2⟩ := p
            have hdec2 : leavesN root = (A ++ [(id, es)]) ++ (id2, es2) :: B2 := by
              rw [hdec]; simp
            have hjB : joinEnts ((id2, es2) :: B2) = es2 ++ joinEnts B2 := by
              simp [joinEnts]
            have hfuel2 :
                es2.length - 0 + (joinEnts B2).length + B2.length + 1 ≤ fuel := by
              rw [hjB] at hfuel
              simp only [List.length_append, List.length_cons] at hfuel
              omega
            rw [ih (A ++ [(id, es)]) id2 es2 B2 0 acc hdec2 hfuel2]
            rw [hdrop, hjB]
            simp

end BTreeJs

namespace BTreeJs

theorem drop_takeWhile_length {α : Type} (p : α → Bool) :
    ∀ l : List α, l.drop (l.takeWhile p).length = l.dropWhile p := by
  intro l
  induction l with
  | nil => rfl
  | cons a l ih =>
      by_cases h : p a
      · simp [List.takeWhile_cons, List.dropWhile_cons, h, ih]
      · simp [List.takeWhile_cons, List.dropWhile_cons, h]

theorem sorted_dropWhile_ge (low : Nat) :
    ∀ l : List Entry, (l.map Prod.fst).Pairwise (· < ·) →
      ∀ e ∈ l.dropWhile (fun e => decide (e.1 < low)), low ≤ e.1 := by
  intro l
  induction l with
  | nil => intro _ e he; simp at he
  | cons a l ih =>
      intro hp e he
      rw [List.map_cons] at hp
      have hp2 := List.pairwise_cons.mp hp
      rw [List.dropWhile_cons] at he
      by_cases h : a.1 < low
      · rw [if_pos (by simpa using h)] at he
        exact ih hp2.2 e he
      · rw [if_neg (by simpa using h)] at he
        rcases List.mem_cons.mp he with rfl | he
        · exact Nat.not_lt.mp h
        · have : a.1 < e.1 := hp2.1 e.1 (List.mem_map.mpr ⟨e, he, rfl⟩)
          omega

theorem sorted_filter_le_eq_takeWhile (high : Nat) :
    ∀ l : List Entry, (l.map Prod.fst).Pairwise (· < ·) →
      l.filter (fun e => decide (e.1 ≤ high)) =
        l.takeWhile (fun e => decide (e.1 ≤ high)) := by
  intro l
  induction l with
  | nil => intro _; rfl
  | cons a l ih =>
      intro hp
      rw [List.map_cons] at hp
      have hp2 := List.pairwise_cons.mp hp
      rw [List.filter_cons, List.takeWhile_cons]
      by_cases h : a.1 ≤ high
      · rw [if_pos (by simpa using h), if_pos (by simpa using h)]
        rw [ih hp2.2]
      · rw [if_neg (by simpa using h), if_neg (by simpa using h)]
        apply List.filter_eq_nil_iff.mpr
        intro e he
        have : a.1 < e.1 := hp2.1 e.1 (List.mem_map.mpr ⟨e, he, rfl⟩)
        simp only [decide_eq_true_eq]
        omega

end BTreeJs

namespace BTreeJs

/-- Claim C4: on a tree satisfying the resting invariants of the spec
(validSearchState), range(low, high) returns exactly the stored entries whose
keys lie in [low, high], both ends inclusive, in ascending key order, and in
particular returns the empty sequence when low > high.  The function is
read-only: it returns a value without touching the state (rangeHL consumes
the tree and the chain purely).  Note the hypothesis is genuinely needed:
reachable states can violate the invariants (see C3), and this theorem
describes range on the valid states the spec quantifies over. -/
theorem c4_range_low_high (st : BTState) (low high : Nat)
    (hvalid : validSearchState st = true) :
    rangeHL st low high =
      (inorderN st.root).filter (fun e => decide (low ≤ e.1) && decide (e.1 ≤ high)) ∧
    ((rangeHL st low high).map Prod.fst).Pairwise (· < ·) ∧
    (high < low → rangeHL st low high = []) := by
  rw [validSearchState, Bool.and_eq_true, Bool.and_eq_true] at hvalid
  obtain ⟨⟨hwf, hchain⟩, hnd⟩ := hvalid
  have hnd2 : ((leavesN st.root).map Prod.fst).Nodup := by
    rw [← leafIds_eq_map_fst]
    exact of_decide_eq_true hnd
  have hchain2 : chainNextOk st.chain.next ((leavesN st.root).map Prod.fst) = true := by
    rw [← leafIds_eq_map_fst]
    exact hchain
  have hsorted : ((inorderN st.root).map Prod.fst).Pairwise (· < ·) :=
    (wfB_sorted_bounds st.root none none hwf).1
  obtain ⟨id, es, A, B, hdesc, hleaves, hA, hB⟩ :=
    rangeDescend_spec low (heightN st.root) st.root none none hwf (le_refl _)
  have hinorder : inorderN st.root = joinEnts A ++ (es ++ joinEnts B) := by
    rw [inorder_eq_joinEnts, hleaves, joinEnts_append]
    simp [joinEnts]
  have hmain : rangeHL st low high =
      (es.dropWhile (fun e => decide (e.1 < low)) ++ joinEnts B).takeWhile
        (fun e => decide (e.1 ≤ high)) := by
    rw [rangeHL, hdesc]
    show collectHL st.root st.chain high (walkFuel st.root) (some (id, es))
      ((es.takeWhile (fun e => decide (e.1 < low))).length) [] = _
    have hfuel : es.length - (es.takeWhile (fun e => decide (e.1 < low))).length +
        (joinEnts B).length + B.length + 1 ≤ walkFuel st.root := by
      have h1 : (inorderN st.root).length =
          (joinEnts A).length + es.length + (joinEnts B).length := by
        rw [hinorder]
        simp only [List.length_append]
        omega
      have h2 : (leafIdsN st.root).length = A.length + 1 + B.length := by
        rw [leafIds_eq_map_fst, hleaves]
        simp only [List.length_map, List.length_append, List.length_cons]
        omega
      rw [walkFuel, h1, h2]
      omega
    rw [collectHL_spec st.root st.chain high hchain2 hnd2 (walkFuel st.root)
      A id es B _ [] hleaves hfuel]
    rw [drop_takeWhile_length]
    simp
  have hsorted2 : ((es ++ joinEnts B).map Prod.fst).Pairwise (· < ·) := by
    have hsub : (es ++ joinEnts B).Sublist (inorderN st.root) := by
      rw [hinorder]
      exact (List.sublist_append_right _ _)
    exact List.Pairwise.sublist (hsub.map Prod.fst) hsorted
  have hsortedEs : (es.map Prod.fst).Pairwise (· < ·) := by
    have hsub : es.Sublist (es ++ joinEnts B) := List.sublist_append_left _ _
    exact List.Pairwise.sublist (hsub.map Prod.fst) hsorted2
  have hT := sorted_dropWhile_ge low es hsortedEs
  have hTsorted :
      ((es.dropWhile (fun e => decide (e.1 < low)) ++ joinEnts B).map Prod.fst).Pairwise
        (· < ·) := by
    have hsub : (es.dropWhile (fun e => decide (e.1 < low)) ++ joinEnts B).Sublist
        (es ++ joinEnts B) :=
      List.Sublist.append_right (List.dropWhile_sublist _) _
    exact List.Pairwise.sublist (hsub.map Prod.fst) hsorted2
  have hTge : ∀ e ∈ es.dropWhile (fun e => decide (e.1 < low)) ++ joinEnts B,
      low ≤ e.1 := by
    intro e he
    rcases List.mem_append.mp he with he | he
    · exact hT e he
    · exact le_of_lt (hB e he)
  have hfilterT :
      (es.dropWhile (fun e => decide (e.1 < low)) ++ joinEnts B).filter
          (fun e => decide (low ≤ e.1) && decide (e.1 ≤ high)) =
        (es.dropWhile (fun e => decide (e.1 < low)) ++ joinEnts B).takeWhile
          (fun e => decide (e.1 ≤ high)) := by
    rw [← sorted_filter_le_eq_takeWhile high _ hTsorted]
    apply List.filter_congr
    intro e he
    simp [hTge e he]
  have hfilterA : (joinEnts A).filter
      (fun e => decide (low ≤ e.1) && decide (e.1 ≤ high)) = [] := by
    apply List.filter_eq_nil_iff.mpr
    intro e he
    have := hA e he
    simp only [Bool.and_eq_true, decide_eq_true_eq]
    omega
  have hfilterPre : (es.takeWhile (fun e => decide (e.1 < low))).filter
      (fun e => decide (low ≤ e.1) && decide (e.1 ≤ high)) = [] := by
    apply List.filter_eq_nil_iff.mpr
    intro e he
    have := List.mem_takeWhile_imp he
    simp only [decide_eq_true_eq] at this
    simp only [Bool.and_eq_true, decide_eq_true_eq]
    omega
  have hfilter : (inorderN st.root).filter
      (fun e => decide (low ≤ e.1) && decide (e.1 ≤ high)) =
      (es.dropWhile (fun e => decide (e.1 < low)) ++ joinEnts B).filter
        (fun e => decide (low ≤ e.1) && decide (e.1 ≤ high)) := by
    rw [hinorder, List.filter_append, hfilterA, List.nil_append]
    conv_lhs => rw [← List.takeWhile_append_dropWhile
      (p := fun e => decide (e.1 < low)) (l := es)]
    rw [List.append_assoc, List.filter_append, hfilterPre, List.nil_append]
  have heq : rangeHL st low high =
      (inorderN st.root).filter (fun e => decide (low ≤ e.1) && decide (e.1 ≤ high)) := by
    rw [hmain, hfilter, hfilterT]
  refine ⟨heq, ?_, ?_⟩
  · rw [heq]
    have hsub : ((inorderN st.root).filter
        (fun e => decide (low ≤ e.1) && decide (e.1 ≤ high))).Sublist (inorderN st.root) :=
      List.filter_sublist _
    exact List.Pairwise.sublist (hsub.map Prod.fst) hsorted
  · intro hlt
    rw [heq]
    apply List.filter_eq_nil_iff.mpr
    intro e he
    simp only [Bool.and_eq_true, decide_eq_true_eq]
    omega

set_option maxRecDepth 40000 in
/-- Witness for C4 at a concrete input: the tree built from keys 0..63
satisfies the resting invariants, and range(10, 12) returns exactly the
filtered entries. -/
theorem c4_range_witness :
    validSearchState exTree64 = true ∧
    rangeHL exTree64 10 12 =
      (inorderN exTree64.root).filter (fun e => decide (10 ≤ e.1) && decide (e.1 ≤ 12)) :=
  ⟨by decide, (c4_range_low_high exTree64 10 12 (by decide)).1⟩

end BTreeJs

namespace BTreeJs

theorem collectLC_none (root : Node) (ch : ChainSt) (count : Nat) :
    ∀ (fuel idx taken : Nat) (acc : List Entry),
      collectLC root ch count fuel none idx taken acc = acc.reverse := by
  intro fuel idx taken acc
  cases fuel with
  | zero => rfl
  | succ fuel => rfl

theorem collectLC_spec (root : Node) (ch : ChainSt) (count : Nat)
    (hchain : chainNextOk ch.next ((leavesN root).map Prod.fst) = true)
    (hnd : ((leavesN root).map Prod.fst).Nodup) :
    ∀ (fuel : Nat) (A : List (Nat × List Entry)) (id : Nat) (es : List Entry)
      (B : List (Nat × List Entry)) (idx taken : Nat) (acc : List Entry),
      leavesN root = A ++ (id, es) :: B →
      es.length - idx + (joinEnts B).length + B.length + 1 ≤ fuel →
      collectLC root ch count fuel (some (id, es)) idx taken acc =
        acc.reverse ++ (es.drop idx ++ joinEnts B).take (count - taken) := by
  intro fuel
  induction fuel with
  | zero =>
      intro A id es B idx taken acc hdec hfuel
      omega
  | succ fuel ih =>
      intro A id es B idx taken acc hdec hfuel
      rw [collectLC]
      by_cases htaken : taken ≥ count
      · rw [if_pos htaken]
        have : count - taken = 0 := by omega
        rw [this]
        simp
      · rw [if_neg htaken]
        by_cases hidx : idx < es.length
        · rw [if_pos hidx]
          simp only [List.getD_eq_getElem es (0, 0) hidx]
          have hdrop : es.drop idx = es[idx] :: es.drop (idx + 1) :=
            List.drop_eq_getElem_cons hidx
          rw [ih A id es B (idx + 1) (taken + 1) (es[idx] :: acc) hdec (by omega)]
          rw [hdrop, List.cons_append]
          have hcnt : count - taken = (count - (taken + 1)) + 1 := by omega
          rw [hcnt, List.take_succ_cons]
          simp
        · rw [if_neg hidx]
          have hdrop : es.drop idx = [] :=
            List.drop_eq_nil_of_le (Nat.not_lt.mp hidx)
          rw [hopNext_spec root ch hchain hnd A id es B hdec]
          cases B with
          | nil =>
              rw [collectLC_none]
              simp [hdrop, joinEnts]
          | cons p B2 =>
              obtain ⟨id2, es2⟩ := p
              have hdec2 : leavesN root = (A ++ [(id, es)]) ++ (id2, es2) :: B2 := by
                rw [hdec]; simp
              have hjB : joinEnts ((id2, es2) :: B2) = es2 ++ joinEnts B2 := by
                simp [joinEnts]
              have hfuel2 :
                  es2.length - 0 + (joinEnts B2).length + B2.length + 1 ≤ fuel := by
                rw [hjB] at hfuel
                simp only [List.length_append, List.length_cons] at hfuel
                omega
              rw [ih (A ++ [(id, es)]) id2 es2 B2 0 taken acc hdec2 hfuel2]
              rw [hdrop, hjB]
              simp

/-- Claim C5: on a tree satisfying the resting invariants of the spec,
range(low, n) returns the n smallest stored entries with key at least low
(all of them when fewer than n exist), in ascending order; in particular the
result holds exactly min(n, number of stored keys at least low) entries, and
n = 0 yields the empty sequence. -/
theorem c5_range_low_count (st : BTState) (low n : Nat)
    (hvalid : validSearchState st = true) :
    rangeLC st low n =
      ((inorderN st.root).filter (fun e => decide (low ≤ e.1))).take n ∧
    (rangeLC st low n).length =
      min n ((inorderN st.root).filter (fun e => decide (low ≤ e.1))).length ∧
    (n = 0 → rangeLC st low n = []) := by
  rw [validSearchState, Bool.and_eq_true, Bool.and_eq_true] at hvalid
  obtain ⟨⟨hwf, hchain⟩, hnd⟩ := hvalid
  have hnd2 : ((leavesN st.root).map Prod.fst).Nodup := by
    rw [← leafIds_eq_map_fst]
    exact of_decide_eq_true hnd
  have hchain2 : chainNextOk st.chain.next ((leavesN st.root).map Prod.fst) = true := by
    rw [← leafIds_eq_map_fst]
    exact hchain
  have hsorted : ((inorderN st.root).map Prod.fst).Pairwise (· < ·) :=
    (wfB_sorted_bounds st.root none none hwf).1
  obtain ⟨id, es, A, B, hdesc, hleaves, hA, hB⟩ :=
    rangeDescend_spec low (heightN st.root) st.root none none hwf (le_refl _)
  have hinorder : inorderN st.root = joinEnts A ++ (es ++ joinEnts B) := by
    rw [inorder_eq_joinEnts, hleaves, joinEnts_append]
    simp [joinEnts]
  have hsorted2 : ((es ++ joinEnts B).map Prod.fst).Pairwise (· < ·) := by
    have hsub : (es ++ joinEnts B).Sublist (inorderN st.root) := by
      rw [hinorder]
      exact (List.sublist_append_right _ _)
    exact List.Pairwise.sublist (hsub.map Prod.fst) hsorted
  have hsortedEs : (es.map Prod.fst).Pairwise (· < ·) := by
    have hsub : es.Sublist (es ++ joinEnts B) := List.sublist_append_left _ _
    exact List.Pairwise.sublist (hsub.map Prod.fst) hsorted2
  have hTge : ∀ e ∈ es.dropWhile (fun e => decide (e.1 < low)) ++ joinEnts B,
      low ≤ e.1 := by
    intro e he
    rcases List.mem_append.mp he with he | he
    · exact sorted_dropWhile_ge low es hsortedEs e he
    · exact le_of_lt (hB e he)
  have hfilterA : (joinEnts A).filter (fun e => decide (low ≤ e.1)) = [] := by
    apply List.filter_eq_nil_iff.mpr
    intro e he
    have := hA e he
    simp only [decide_eq_true_eq]
    omega
  have hfilterPre : (es.takeWhile (fun e => decide (e.1 < low))).filter
      (fun e => decide (low ≤ e.1)) = [] := by
    apply List.filter_eq_nil_iff.mpr
    intro e he
    have := List.mem_takeWhile_imp he
    simp only [decide_eq_true_eq] at this
    simp only [decide_eq_true_eq]
    omega
  have hfilter : (inorderN st.root).filter (fun e => decide (low ≤ e.1)) =
      es.dropWhile (fun e => decide (e.1 < low)) ++ joinEnts B := by
    rw [hinorder, List.filter_append, hfilterA, List.nil_append]
    conv_lhs => rw [← List.takeWhile_append_dropWhile
      (p := fun e => decide (e.1 < low)) (l := es)]
    rw [List.append_assoc, List.filter_append, hfilterPre, List.nil_append]
    apply List.filter_eq_self.mpr
    intro e he
    simp only [decide_eq_true_eq]
    exact hTge e he
  by_cases hn : n = 0
  · subst hn
    refine ⟨by rw [rangeLC, if_pos rfl]; simp, by rw [rangeLC, if_pos rfl]; simp, fun _ => by
      rw [rangeLC, if_pos rfl]⟩
  · have hmain : rangeLC st low n =
        (es.dropWhile (fun e => decide (e.1 < low)) ++ joinEnts B).take n := by
      rw [rangeLC, if_neg hn, hdesc]
      show collectLC st.root st.chain n (walkFuel st.root) (some (id, es))
        ((es.takeWhile (fun e => decide (e.1 < low))).length) 0 [] = _
      have hfuel : es.length - (es.takeWhile (fun e => decide (e.1 < low))).length +
          (joinEnts B).length + B.length + 1 ≤ walkFuel st.root := by
        have h1 : (inorderN st.root).length =
            (joinEnts A).length + es.length + (joinEnts B).length := by
          rw [hinorder]
          simp only [List.length_append]
          omega
        have h2 : (leafIdsN st.root).length = A.length + 1 + B.length := by
          rw [leafIds_eq_map_fst, hleaves]
          simp only [List.length_map, List.length_append, List.length_cons]
          omega
        rw [walkFuel, h1, h2]
        omega
      rw [collectLC_spec st.root st.chain n hchain2 hnd2 (walkFuel st.root)
        A id es B _ 0 [] hleaves hfuel]
      rw [drop_takeWhile_length]
      simp
    have heq : rangeLC st low n =
        ((inorderN st.root).filter (fun e => decide (low ≤ e.1))).take n := by
      rw [hmain, hfilter]
    refine ⟨heq, ?_, fun h0 => absurd h0 hn⟩
    rw [heq, List.length_take]

set_option maxRecDepth 40000 in
/-- Witness for C5 at a concrete input: on the tree built from keys 0..63,
range(60, 10) returns the four entries with keys 60..63 (min(10, 4) = 4). -/
theorem c5_range_witness :
    validSearchState exTree64 = true ∧
    rangeLC exTree64 60 10 =
      ((inorderN exTree64.root).filter (fun e => decide (60 ≤ e.1))).take 10 :=
  ⟨by decide, (c5_range_low_count exTree64 60 10 (by decide)).1⟩

end BTreeJs

namespace BTreeJs

theorem CAP_eq : CAP = 32 := rfl

theorem MAXK_eq : MAXK = 63 := rfl

mutual
/-- Shape part of the resting invariants for a non-root subtree whose root
sits h levels above the leaves: counts within [s_CAPACITY - 1, s_MAX_KEYS],
an internal node with K routing keys owning exactly K + 1 children, and all
leaves at the same depth (spec invariants 1 and 2). -/
def shapeOk : Node → Nat → Bool
  | .leaf _ es, 0 =>
      decide (CAP - 1 ≤ es.length) && decide (es.length ≤ MAXK)
  | .leaf _ _, _ + 1 => false
  | .internal _ _, 0 => false
  | .internal ks cs, h + 1 =>
      decide (CAP - 1 ≤ ks.length) && decide (ks.length ≤ MAXK) &&
      decide (cs.length = ks.length + 1) && shapeOkL cs h
def shapeOkL : List Node → Nat → Bool
  | [], _ => true
  | c :: cs, h => shapeOk c h && shapeOkL cs h
end

/-- Shape invariant of a node in root position at height h: the lower count
bound is dropped, but an internal root holds at least one routing key at
rest. -/
def rootOkH : Node → Nat → Bool
  | .leaf _ es, 0 => decide (es.length ≤ MAXK)
  | .leaf _ _, _ + 1 => false
  | .internal _ _, 0 => false
  | .internal ks cs, h + 1 =>
      decide (1 ≤ ks.length) && decide (ks.length ≤ MAXK) &&
      decide (cs.length = ks.length + 1) && shapeOkL cs h

/-- Variant of rootOkH produced in the middle of a remove, where an internal
root may be left with zero routing keys until the root collapse runs. -/
def midOkH : Node → Nat → Bool
  | .leaf _ es, 0 => decide (es.length ≤ MAXK)
  | .leaf _ _, _ + 1 => false
  | .internal _ _, 0 => false
  | .internal ks cs, h + 1 =>
      decide (ks.length ≤ MAXK) &&
      decide (cs.length = ks.length + 1) && shapeOkL cs h

mutual
/-- Conclusion predicate of claim C8 for a subtree: every node in it holds
between s_CAPACITY - 1 and s_MAX_KEYS keys/entries. -/
def allCapOk : Node → Bool
  | .leaf _ es => decide (CAP - 1 ≤ es.length) && decide (es.length ≤ MAXK)
  | .internal ks cs =>
      decide (CAP - 1 ≤ ks.length) && decide (ks.length ≤ MAXK) && allCapOkL cs
def allCapOkL : List Node → Bool
  | [] => true
  | c :: cs => allCapOk c && allCapOkL cs
end

/-- Conclusion predicate of claim C8: every non-root node of the tree holds
between s_CAPACITY - 1 and s_MAX_KEYS keys/entries. -/
def nonRootCapOk : Node → Bool
  | .leaf _ _ => true
  | .internal _ cs => allCapOkL cs

theorem shapeOk_allCapOk :
    ∀ (n : Node) (h : Nat), shapeOk n h = true → allCapOk n = true := by
  refine @shapeOk.induct
    (fun n h => shapeOk n h = true → allCapOk n = true)
    (fun cs h => shapeOkL cs h = true → allCapOkL cs = true)
    ?_ ?_ ?_ ?_ ?_ ?_
  · intro id es hsh
    simp only [shapeOk] at hsh
    simp only [allCapOk]
    exact hsh
  · intro id es h hsh
    simp only [shapeOk] at hsh
    cases hsh
  · intro ks cs hsh
    simp only [shapeOk] at hsh
    cases hsh
  · intro ks cs h ih hsh
    simp only [shapeOk, Bool.and_eq_true] at hsh
    obtain ⟨⟨⟨h1, h2⟩, _⟩, h4⟩ := hsh
    simp only [allCapOk, Bool.and_eq_true]
    exact ⟨⟨h1, h2⟩, ih h4⟩
  · intro h
    intro _
    rfl
  · intro c cs h ih1 ih2 hsh
    simp only [shapeOkL, Bool.and_eq_true] at hsh
    simp only [allCapOkL, Bool.and_eq_true]
    exact ⟨ih1 hsh.1, ih2 hsh.2⟩

end BTreeJs

namespace BTreeJs

theorem shapeOkL_iff : ∀ (cs : List Node) (h : Nat),
    shapeOkL cs h = true ↔ ∀ c ∈ cs, shapeOk c h = true := by
  intro cs h
  induction cs with
  | nil => simp [shapeOkL]
  | cons c cs ih =>
      rw [shapeOkL, Bool.and_eq_true, ih]
      constructor
      · intro ⟨h1, h2⟩ d hd
        rcases List.mem_cons.mp hd with rfl | hd
        · exact h1
        · exact h2 d hd
      · intro hall
        exact ⟨hall c (List.mem_cons_self _ _), fun d hd => hall d (List.mem_cons_of_mem _ hd)⟩

theorem mem_insertIdx_imp {α : Type} {a b : α} :
    ∀ (n : Nat) (l : List α), a ∈ l.insertIdx n b → a = b ∨ a ∈ l := by
  intro n
  induction n with
  | zero =>
      intro l h
      rw [List.insertIdx] at h
      rcases List.mem_cons.mp h with rfl | h
      · exact Or.inl rfl
      · exact Or.inr h
  | succ n ih =>
      intro l h
      cases l with
      | nil => rw [List.insertIdx] at h; cases h
      | cons x xs =>
          rw [List.insertIdx] at h
          rcases List.mem_cons.mp h with rfl | h
          · exact Or.inr (List.mem_cons_self _ _)
          · rcases ih xs h with h | h
            · exact Or.inl h
            · exact Or.inr (List.mem_cons_of_mem _ h)

theorem shapeOkL_set {cs : List Node} {h : Nat} {c : Node} {i : Nat}
    (hall : shapeOkL cs h = true) (hc : shapeOk c h = true) :
    shapeOkL (cs.set i c) h = true := by
  rw [shapeOkL_iff]
  intro d hd
  rcases List.mem_or_eq_of_mem_set hd with hd | rfl
  · exact (shapeOkL_iff cs h).mp hall d hd
  · exact hc

theorem shapeOkL_insertIdx {cs : List Node} {h : Nat} {c : Node} {i : Nat}
    (hall : shapeOkL cs h = true) (hc : shapeOk c h = true) :
    shapeOkL (cs.insertIdx i c) h = true := by
  rw [shapeOkL_iff]
  intro d hd
  rcases mem_insertIdx_imp i cs hd with rfl | hd
  · exact hc
  · exact (shapeOkL_iff cs h).mp hall d hd

theorem shapeOkL_eraseIdx {cs : List Node} {h : Nat} {i : Nat}
    (hall : shapeOkL cs h = true) :
    shapeOkL (cs.eraseIdx i) h = true := by
  rw [shapeOkL_iff]
  intro d hd
  exact (shapeOkL_iff cs h).mp hall d ((List.eraseIdx_sublist cs i).mem hd)

theorem shapeOkL_take {cs : List Node} {h : Nat} (k : Nat)
    (hall : shapeOkL cs h = true) : shapeOkL (cs.take k) h = true := by
  rw [shapeOkL_iff]
  intro d hd
  exact (shapeOkL_iff cs h).mp hall d ((List.take_sublist k cs).mem hd)

theorem shapeOkL_drop {cs : List Node} {h : Nat} (k : Nat)
    (hall : shapeOkL cs h = true) : shapeOkL (cs.drop k) h = true := by
  rw [shapeOkL_iff]
  intro d hd
  exact (shapeOkL_iff cs h).mp hall d ((List.drop_sublist k cs).mem hd)

theorem shapeOk_getD {cs : List Node} {h i : Nat}
    (hall : shapeOkL cs h = true) (hi : i < cs.length) :
    shapeOk (cs.getD i dummyNode) h = true := by
  rw [List.getD_eq_getElem _ _ hi]
  exact (shapeOkL_iff cs h).mp hall _ (List.getElem_mem hi)

theorem lowerBoundIdx_le_length (ks : List Nat) (key : Nat) :
    lowerBoundIdx ks key ≤ ks.length := by
  rw [lowerBoundIdx]
  simpa using List.Sublist.length_le (List.takeWhile_sublist _)

theorem upperBoundIdx_le_length (ks : List Nat) (key : Nat) :
    upperBoundIdx ks key ≤ ks.length := by
  rw [upperBoundIdx]
  simpa using List.Sublist.length_le (List.takeWhile_sublist _)

theorem eraseFirstMatch_length (key : Nat) :
    ∀ es : List Entry, es.length - 1 ≤ (eraseFirstMatch es key).length ∧
      (eraseFirstMatch es key).length ≤ es.length := by
  intro es
  induction es with
  | nil => simp [eraseFirstMatch]
  | cons e rest ih =>
      rw [eraseFirstMatch]
      by_cases hc : ¬ e.1 < key ∧ ¬ key < e.1
      · rw [if_pos hc]
        simp
      · rw [if_neg hc]
        simp only [List.length_cons]
        omega

theorem rootOkH_of_shapeOk {c : Node} {h : Nat} (hs : shapeOk c h = true) :
    rootOkH c h = true := by
  cases c with
  | leaf id es =>
      cases h with
      | zero =>
          simp only [shapeOk, Bool.and_eq_true] at hs
          simp only [rootOkH]
          exact hs.2
      | succ h => simp only [shapeOk] at hs; cases hs
  | internal ks cs =>
      cases h with
      | zero => simp only [shapeOk] at hs; cases hs
      | succ h =>
          simp only [shapeOk, Bool.and_eq_true, decide_eq_true_eq] at hs
          obtain ⟨⟨⟨h1, h2⟩, h3⟩, h4⟩ := hs
          simp only [rootOkH, Bool.and_eq_true, decide_eq_true_eq]
          rw [CAP_eq] at h1
          exact ⟨⟨⟨by omega, h2⟩, h3⟩, h4⟩

theorem shapeOk_of_midOkH {c : Node} {h : Nat} (hm : midOkH c h = true)
    (hcnt : CAP - 1 ≤ nodeCount c) : shapeOk c h = true := by
  cases c with
  | leaf id es =>
      cases h with
      | zero =>
          simp only [midOkH, decide_eq_true_eq] at hm
          simp only [nodeCount] at hcnt
          simp only [shapeOk, Bool.and_eq_true, decide_eq_true_eq]
          exact ⟨hcnt, hm⟩
      | succ h => simp only [midOkH] at hm; cases hm
  | internal ks cs =>
      cases h with
      | zero => simp only [midOkH] at hm; cases hm
      | succ h =>
          simp only [midOkH, Bool.and_eq_true, decide_eq_true_eq] at hm
          simp only [nodeCount] at hcnt
          simp only [shapeOk, Bool.and_eq_true, decide_eq_true_eq]
          exact ⟨⟨⟨hcnt, hm.1.1⟩, hm.1.2⟩, hm.2⟩

theorem midOkH_of_rootOkH {c : Node} {h : Nat} (hr : rootOkH c h = true) :
    midOkH c h = true := by
  cases c with
  | leaf id es =>
      cases h with
      | zero => simpa only [midOkH] using hr
      | succ h => simp only [rootOkH] at hr; cases hr
  | internal ks cs =>
      cases h with
      | zero => simp only [rootOkH] at hr; cases hr
      | succ h =>
          simp only [rootOkH, Bool.and_eq_true] at hr
          simp only [midOkH, Bool.and_eq_true]
          exact ⟨⟨hr.1.1.2, hr.1.2⟩, hr.2⟩

end BTreeJs

namespace BTreeJs

theorem length_insertIdx_of_le {α : Type} {a : α} :
    ∀ (n : Nat) (l : List α), n ≤ l.length → (l.insertIdx n a).length = l.length + 1 := by
  intro n
  induction n with
  | zero => intro l _; rfl
  | succ n ih =>
      intro l hn
      cases l with
      | nil => simp at hn
      | cons x xs =>
          have : (x :: xs).insertIdx (n + 1) a = x :: xs.insertIdx n a := rfl
          rw [this, List.length_cons, List.length_cons,
            ih xs (by simpa using hn)]

theorem getD_set_self {α : Type} {a d : α} :
    ∀ (l : List α) (i : Nat), i < l.length → (l.set i a).getD i d = a := by
  intro l
  induction l with
  | nil => intro i hi; simp at hi
  | cons x xs ih =>
      intro i hi
      cases i with
      | zero => rfl
      | succ i =>
          rw [List.set_cons_succ]
          simpa using ih i (by simpa using hi)

theorem getD_set_ne {α : Type} {a d : α} :
    ∀ (l : List α) (i j : Nat), i ≠ j → (l.set i a).getD j d = l.getD j d := by
  intro l
  induction l with
  | nil => intro i j _; simp
  | cons x xs ih =>
      intro i j hne
      cases i with
      | zero =>
          cases j with
          | zero => exact absurd rfl hne
          | succ j => rfl
      | succ i =>
          cases j with
          | zero => rfl
          | succ j =>
              rw [List.set_cons_succ]
              simpa using ih i j (by omega)

theorem getD_insertIdx_self {α : Type} {a d : α} :
    ∀ (i : Nat) (l : List α), i ≤ l.length → (l.insertIdx i a).getD i d = a := by
  intro i
  induction i with
  | zero => intro l _; rfl
  | succ i ih =>
      intro l hi
      cases l with
      | nil => simp at hi
      | cons x xs =>
          rw [List.insertIdx]
          simpa using ih xs (by simpa using hi)

theorem getD_insertIdx_lt {α : Type} {a d : α} :
    ∀ (j i : Nat) (l : List α), j < i → (l.insertIdx i a).getD j d = l.getD j d := by
  intro j
  induction j with
  | zero =>
      intro i l hj
      cases i with
      | zero => omega
      | succ i =>
          cases l with
          | nil => rfl
          | cons x xs => rfl
  | succ j ih =>
      intro i l hj
      cases i with
      | zero => omega
      | succ i =>
          cases l with
          | nil => rfl
          | cons x xs =>
              rw [List.insertIdx]
              simpa using ih i xs (by omega)

theorem splitChild_cap {ks : List Nat} {cs : List Node} {index h : Nat} {ch : ChainSt}
    (hall : shapeOkL cs h = true) (hlen : cs.length = ks.length + 1)
    (hidx : index ≤ ks.length)
    (hfull : nodeCount (cs.getD index dummyNode) = MAXK) :
    (splitChild ks cs index ch).1.length = ks.length + 1 ∧
    (splitChild ks cs index ch).2.1.length = cs.length + 1 ∧
    shapeOkL (splitChild ks cs index ch).2.1 h = true ∧
    nodeCount ((splitChild ks cs index ch).2.1.getD index dummyNode) < MAXK ∧
    nodeCount ((splitChild ks cs index ch).2.1.getD (index + 1) dummyNode) < MAXK := by
  have hilt : index < cs.length := by omega
  have hs := shapeOk_getD hall hilt
  cases hchild : cs.getD index dummyNode with
  | leaf cid es =>
      rw [hchild] at hs hfull
      simp only [nodeCount] at hfull
      cases h with
      | succ h => simp only [shapeOk] at hs; cases hs
      | zero =>
          have hL : shapeOk (Node.leaf cid (es.take CAP)) 0 = true := by
            simp only [shapeOk, Bool.and_eq_true, decide_eq_true_eq]
            rw [List.length_take, hfull, CAP_eq, MAXK_eq]
            omega
          have hR : shapeOk (Node.leaf ch.freshId (es.drop CAP)) 0 = true := by
            simp only [shapeOk, Bool.and_eq_true, decide_eq_true_eq]
            rw [List.length_drop, hfull, CAP_eq, MAXK_eq]
            omega
          have hlenset : (cs.set index (Node.leaf cid (es.take CAP))).length = cs.length :=
            List.length_set cs index _
          have hidx2 : index + 1 ≤ (cs.set index (Node.leaf cid (es.take CAP))).length := by
            omega
          refine ⟨?_, ?_, ?_, ?_, ?_⟩
          · rw [splitChild, hchild]
            exact length_insertIdx_of_le index ks hidx
          · rw [splitChild, hchild]
            rw [length_insertIdx_of_le (index + 1) _ hidx2, hlenset]
          · rw [splitChild, hchild]
            exact shapeOkL_insertIdx (shapeOkL_set hall hL) hR
          · rw [splitChild, hchild]
            rw [getD_insertIdx_lt index (index + 1) _ (by omega),
              getD_set_self _ index (by omega)]
            simp only [nodeCount]
            rw [List.length_take, hfull, CAP_eq, MAXK_eq]
            omega
          · rw [splitChild, hchild]
            rw [getD_insertIdx_self (index + 1) _ hidx2]
            simp only [nodeCount]
            rw [List.length_drop, hfull, CAP_eq, MAXK_eq]
            omega
  | internal cks ccs =>
      rw [hchild] at hs hfull
      simp only [nodeCount] at hfull
      cases h with
      | zero => simp only [shapeOk] at hs; cases hs
      | succ h =>
          simp only [shapeOk, Bool.and_eq_true, decide_eq_true_eq] at hs
          obtain ⟨⟨⟨hk1, hk2⟩, hclen⟩, hccs⟩ := hs
          have hL : shapeOk (Node.internal (cks.take (CAP - 1))
              (ccs.take (CAP - 1 + 1))) (h + 1) = true := by
            simp only [shapeOk, Bool.and_eq_true, decide_eq_true_eq]
            refine ⟨⟨⟨?_, ?_⟩, ?_⟩, shapeOkL_take _ hccs⟩
            · rw [List.length_take, hfull, CAP_eq, MAXK_eq]; omega
            · rw [List.length_take, hfull, CAP_eq, MAXK_eq]; omega
            · simp only [List.length_take, hclen, hfull, CAP_eq, MAXK_eq]
              omega
          have hR : shapeOk (Node.internal (cks.drop (CAP - 1 + 1))
              (ccs.drop (CAP - 1 + 1))) (h + 1) = true := by
            simp only [shapeOk, Bool.and_eq_true, decide_eq_true_eq]
            refine ⟨⟨⟨?_, ?_⟩, ?_⟩, shapeOkL_drop _ hccs⟩
            · rw [List.length_drop, hfull, CAP_eq, MAXK_eq]
            · rw [List.length_drop, hfull, CAP_eq, MAXK_eq]; omega
            · simp only [List.length_drop, hclen, hfull, CAP_eq, MAXK_eq]
          have hlenset : (cs.set index (Node.internal (cks.take (CAP - 1))
              (ccs.take (CAP - 1 + 1)))).length = cs.length :=
            List.length_set cs index _
          have hidx2 : index + 1 ≤ (cs.set index (Node.internal (cks.take (CAP - 1))
              (ccs.take (CAP - 1 + 1)))).length := by
            omega
          refine ⟨?_, ?_, ?_, ?_, ?_⟩
          · rw [splitChild, hchild]
            exact length_insertIdx_of_le index ks hidx
          · rw [splitChild, hchild]
            rw [length_insertIdx_of_le (index + 1) _ hidx2, hlenset]
          · rw [splitChild, hchild]
            exact shapeOkL_insertIdx (shapeOkL_set hall hL) hR
          · rw [splitChild, hchild]
            rw [getD_insertIdx_lt index (index + 1) _ (by omega),
              getD_set_self _ index (by omega)]
            simp only [nodeCount]
            rw [List.length_take, hfull, CAP_eq, MAXK_eq]
            omega
          · rw [splitChild, hchild]
            rw [getD_insertIdx_self (index + 1) _ hidx2]
            simp only [nodeCount]
            rw [List.length_drop, hfull, CAP_eq, MAXK_eq]
            omega

end BTreeJs

namespace BTreeJs

theorem shapeOk_count_bounds {c : Node} {h : Nat} (hs : shapeOk c h = true) :
    CAP - 1 ≤ nodeCount c ∧ nodeCount c ≤ MAXK := by
  cases c with
  | leaf id es =>
      cases h with
      | zero =>
          simp only [shapeOk, Bool.and_eq_true, decide_eq_true_eq] at hs
          simpa only [nodeCount] using hs
      | succ h => simp only [shapeOk] at hs; cases hs
  | internal ks cs =>
      cases h with
      | zero => simp only [shapeOk] at hs; cases hs
      | succ h =>
          simp only [shapeOk, Bool.and_eq_true, decide_eq_true_eq] at hs
          simp only [nodeCount]
          exact ⟨hs.1.1.1, hs.1.1.2⟩

theorem insertNonFull_cap :
    ∀ (fuel : Nat) (n : Node) (h key val : Nat) (ch : ChainSt),
      rootOkH n h = true → nodeCount n < MAXK →
      rootOkH (insertNonFull fuel n key val ch).1 h = true ∧
      nodeCount n ≤ nodeCount (insertNonFull fuel n key val ch).1 ∧
      nodeCount (insertNonFull fuel n key val ch).1 ≤ nodeCount n + 1 := by
  intro fuel
  induction fuel with
  | zero =>
      intro n h key val ch hr hcnt
      simp only [insertNonFull]
      exact ⟨hr, le_refl _, Nat.le_succ _⟩
  | succ fuel ih =>
      intro n h key val ch hr hcnt
      cases n with
      | leaf id es =>
          cases h with
          | succ h => simp only [rootOkH] at hr; cases hr
          | zero =>
              simp only [rootOkH, decide_eq_true_eq] at hr
              simp only [nodeCount] at hcnt
              have hsum : (es.takeWhile (fun e => decide (e.1 < key))).length +
                  (es.dropWhile (fun e => decide (e.1 < key))).length = es.length := by
                conv_rhs => rw [← List.takeWhile_append_dropWhile
                  (p := fun e => decide (e.1 < key)) (l := es)]
                rw [List.length_append]
              simp only [insertNonFull]
              split
              next e rest heq =>
                rw [heq, List.length_cons] at hsum
                have hdlen : (es.dropWhile (fun e => decide (e.1 < key))).length =
                    rest.length + 1 := by rw [heq, List.length_cons]
                by_cases hc : ¬ key < e.1 ∧ ¬ e.1 < key
                · rw [if_pos hc]
                  simp only [rootOkH, nodeCount, decide_eq_true_eq,
                    List.length_append, List.length_cons]
                  refine ⟨by omega, by omega, by omega⟩
                · rw [if_neg hc]
                  simp only [rootOkH, nodeCount, decide_eq_true_eq,
                    List.length_append, List.length_cons]
                  refine ⟨by omega, by omega, by omega⟩
              next heq =>
                rw [heq, List.length_nil] at hsum
                simp only [rootOkH, nodeCount, decide_eq_true_eq,
                  List.length_append, List.length_cons, List.length_nil]
                refine ⟨by omega, by omega, by omega⟩
      | internal ks cs =>
          cases h with
          | zero => simp only [rootOkH] at hr; cases hr
          | succ h2 =>
              simp only [rootOkH, Bool.and_eq_true, decide_eq_true_eq] at hr
              obtain ⟨⟨⟨hk1, hk2⟩, hlen⟩, hcs⟩ := hr
              simp only [nodeCount] at hcnt
              have hile : lowerBoundIdx ks key ≤ ks.length :=
                lowerBoundIdx_le_length ks key
              have hilt : lowerBoundIdx ks key < cs.length := by omega
              simp only [insertNonFull]
              by_cases hfull : nodeCount (cs.getD (lowerBoundIdx ks key) dummyNode) ≥ MAXK
              · rw [if_pos hfull]
                have hq := shapeOk_count_bounds (shapeOk_getD hcs hilt)
                have hfull2 :
                    nodeCount (cs.getD (lowerBoundIdx ks key) dummyNode) = MAXK := by
                  omega
                obtain ⟨hsl1, hsl2, hsl3, hsl4, hsl5⟩ :=
                  @splitChild_cap _ _ _ _ ch hcs hlen hile hfull2
                split
                next hcc =>
                  have hi2lt : lowerBoundIdx ks key + 1 <
                      (splitChild ks cs (lowerBoundIdx ks key) ch).2.1.length := by
                    omega
                  have htgtshape := shapeOk_getD hsl3 hi2lt
                  have htgtb := shapeOk_count_bounds htgtshape
                  obtain ⟨ihr, ihlo, ihhi⟩ := ih _ h2 key val _
                    (rootOkH_of_shapeOk htgtshape) hsl5
                  refine ⟨?_, ?_, ?_⟩
                  · simp only [rootOkH, Bool.and_eq_true, decide_eq_true_eq]
                    refine ⟨⟨⟨by omega, by omega⟩, ?_⟩, ?_⟩
                    · rw [List.length_set, hsl1, hsl2]; omega
                    · exact shapeOkL_set hsl3 (shapeOk_of_midOkH
                        (midOkH_of_rootOkH ihr) (by omega))
                  · simp only [nodeCount]; omega
                  · simp only [nodeCount]; omega
                next hcc =>
                  have hi2lt : lowerBoundIdx ks key <
                      (splitChild ks cs (lowerBoundIdx ks key) ch).2.1.length := by
                    omega
                  have htgtshape := shapeOk_getD hsl3 hi2lt
                  have htgtb := shapeOk_count_bounds htgtshape
                  obtain ⟨ihr, ihlo, ihhi⟩ := ih _ h2 key val _
                    (rootOkH_of_shapeOk htgtshape) hsl4
                  refine ⟨?_, ?_, ?_⟩
                  · simp only [rootOkH, Bool.and_eq_true, decide_eq_true_eq]
                    refine ⟨⟨⟨by omega, by omega⟩, ?_⟩, ?_⟩
                    · rw [List.length_set, hsl1, hsl2]; omega
                    · exact shapeOkL_set hsl3 (shapeOk_of_midOkH
                        (midOkH_of_rootOkH ihr) (by omega))
                  · simp only [nodeCount]; omega
                  · simp only [nodeCount]; omega
              · rw [if_neg hfull]
                have htgtshape := shapeOk_getD hcs hilt
                have htgtb := shapeOk_count_bounds htgtshape
                obtain ⟨ihr, ihlo, ihhi⟩ := ih _ h2 key val ch
                  (rootOkH_of_shapeOk htgtshape) (by omega)
                refine ⟨?_, ?_, ?_⟩
                · simp only [rootOkH, Bool.and_eq_true, decide_eq_true_eq]
                  refine ⟨⟨⟨by omega, by omega⟩, ?_⟩, ?_⟩
                  · rw [List.length_set]; omega
                  · exact shapeOkL_set hcs (shapeOk_of_midOkH
                      (midOkH_of_rootOkH ihr) (by omega))
                · simp only [nodeCount]; omega
                · simp only [nodeCount]; omega

end BTreeJs

namespace BTreeJs

theorem shapeOk_getLastD {l : List Node} {h : Nat}
    (hall : shapeOkL l h = true) (hne : l ≠ []) :
    shapeOk (l.getLastD dummyNode) h = true := by
  cases l with
  | nil => exact absurd rfl hne
  | cons c cs =>
      have : (c :: cs).getLastD dummyNode = (c :: cs).getLast (by simp) := by
        rw [List.getLastD_eq_getLast?]
        rw [List.getLast?_eq_getLast _ (by simp)]
        rfl
      rw [this]
      exact (shapeOkL_iff _ _).mp hall _ (List.getLast_mem _)

theorem shapeOk_headD {l : List Node} {h : Nat}
    (hall : shapeOkL l h = true) (hne : l ≠ []) :
    shapeOk (l.headD dummyNode) h = true := by
  cases l with
  | nil => exact absurd rfl hne
  | cons c cs =>
      exact (shapeOkL_iff _ _).mp hall _ (List.mem_cons_self _ _)

theorem getD_eraseIdx_lt {α : Type} {d : α} :
    ∀ (l : List α) (i j : Nat), j < i → (l.eraseIdx i).getD j d = l.getD j d := by
  intro l
  induction l with
  | nil => intro i j _; simp [List.eraseIdx]
  | cons x xs ih =>
      intro i j hj
      cases i with
      | zero => omega
      | succ i =>
          rw [List.eraseIdx_cons_succ]
          cases j with
          | zero => rfl
          | succ j => simpa using ih i j (by omega)

theorem shapeOk_leaf_elim {id : Nat} {es : List Entry} {h : Nat}
    (hs : shapeOk (Node.leaf id es) h = true) :
    h = 0 ∧ CAP - 1 ≤ es.length ∧ es.length ≤ MAXK := by
  cases h with
  | zero =>
      simp only [shapeOk, Bool.and_eq_true, decide_eq_true_eq] at hs
      exact ⟨rfl, hs.1, hs.2⟩
  | succ h => simp only [shapeOk] at hs; cases hs

theorem shapeOk_internal_elim {ks : List Nat} {cs : List Node} {h : Nat}
    (hs : shapeOk (Node.internal ks cs) h = true) :
    ∃ h2, h = h2 + 1 ∧ CAP - 1 ≤ ks.length ∧ ks.length ≤ MAXK ∧
      cs.length = ks.length + 1 ∧ shapeOkL cs h2 = true := by
  cases h with
  | zero => simp only [shapeOk] at hs; cases hs
  | succ h =>
      simp only [shapeOk, Bool.and_eq_true, decide_eq_true_eq] at hs
      exact ⟨h, rfl, hs.1.1.1, hs.1.1.2, hs.1.2, hs.2⟩

theorem borrowFromPrev_cap {ks : List Nat} {cs : List Node} {idx h : Nat}
    (hall : shapeOkL cs h = true) (hlen : cs.length = ks.length + 1)
    (hidx1 : 1 ≤ idx) (hidx2 : idx ≤ ks.length)
    (hleft : CAP ≤ nodeCount (cs.getD (idx - 1) dummyNode))
    (hchild : nodeCount (cs.getD idx dummyNode) < CAP) :
    (borrowFromPrev ks cs idx).1.length = ks.length ∧
    (borrowFromPrev ks cs idx).2.length = cs.length ∧
    shapeOkL (borrowFromPrev ks cs idx).2 h = true ∧
    CAP ≤ nodeCount ((borrowFromPrev ks cs idx).2.getD idx dummyNode) := by
  have hCAPe : CAP = 32 := rfl
  have hMAXKe : MAXK = 63 := rfl
  have hclt : idx < cs.length := by omega
  have hllt : idx - 1 < cs.length := by omega
  have hsc := shapeOk_getD hall hclt
  have hsl := shapeOk_getD hall hllt
  cases hcc : cs.getD idx dummyNode with
  | leaf cid ces =>
      rw [hcc] at hsc hchild
      obtain ⟨hh0, hces1, hces2⟩ := shapeOk_leaf_elim hsc
      subst hh0
      simp only [nodeCount] at hchild
      cases hlc : cs.getD (idx - 1) dummyNode with
      | internal lks lcs =>
          rw [hlc] at hsl
          simp only [shapeOk] at hsl; cases hsl
      | leaf lid les =>
          rw [hlc] at hsl hleft
          obtain ⟨_, hles1, hles2⟩ := shapeOk_leaf_elim hsl
          simp only [nodeCount] at hleft
          have hchild2 : shapeOk (Node.leaf cid
              (((entriesOf (cs.getD (idx - 1) dummyNode)).getLastD (0, 0)) :: ces)) 0
              = true := by
            simp only [shapeOk, Bool.and_eq_true, decide_eq_true_eq, List.length_cons]
            omega
          have hleft2 : shapeOk (Node.leaf (idOf (cs.getD (idx - 1) dummyNode))
              (entriesOf (cs.getD (idx - 1) dummyNode)).dropLast) 0 = true := by
            simp only [hlc, entriesOf, idOf, shapeOk, Bool.and_eq_true,
              decide_eq_true_eq, List.length_dropLast]
            omega
          refine ⟨?_, ?_, ?_, ?_⟩
          · rw [borrowFromPrev, hcc]
            exact List.length_set _ _ _
          · rw [borrowFromPrev, hcc]
            rw [List.length_set, List.length_set]
          · rw [borrowFromPrev, hcc]
            exact shapeOkL_set (shapeOkL_set hall hchild2) hleft2
          · rw [borrowFromPrev, hcc]
            rw [getD_set_ne _ (idx - 1) idx (by omega),
              getD_set_self _ idx (by omega)]
            simp only [nodeCount, List.length_cons]
            omega
  | internal cks ccs =>
      rw [hcc] at hsc hchild
      obtain ⟨h2, hh2, hcks1, hcks2, hclen2, hccs⟩ := shapeOk_internal_elim hsc
      subst hh2
      simp only [nodeCount] at hchild
      cases hlc : cs.getD (idx - 1) dummyNode with
      | leaf lid les =>
          rw [hlc] at hsl
          simp only [shapeOk] at hsl; cases hsl
      | internal lks lcs =>
          rw [hlc] at hsl hleft
          obtain ⟨h3, hh3, hlks1, hlks2, hllen2, hlcs⟩ := shapeOk_internal_elim hsl
          cases hh3
          simp only [nodeCount] at hleft
          have hlcsne : lcs ≠ [] := by
            intro hnil
            rw [hnil] at hllen2
            simp at hllen2
          have hchild2 : shapeOk (Node.internal
              (ks.getD (idx - 1) 0 :: cks)
              ((childrenOf (cs.getD (idx - 1) dummyNode)).getLastD dummyNode :: ccs))
              (h2 + 1) = true := by
            simp only [shapeOk, Bool.and_eq_true, decide_eq_true_eq,
              List.length_cons, shapeOkL]
            refine ⟨⟨⟨?_, ?_⟩, ?_⟩, ?_, ?_⟩
            · omega
            · omega
            · omega
            · rw [hlc, childrenOf]
              exact shapeOk_getLastD hlcs hlcsne
            · exact hccs
          have hleft2 : shapeOk (Node.internal
              (keysOf (cs.getD (idx - 1) dummyNode)).dropLast
              (childrenOf (cs.getD (idx - 1) dummyNode)).dropLast) (h2 + 1) = true := by
            simp only [hlc, keysOf, childrenOf, shapeOk, Bool.and_eq_true,
              decide_eq_true_eq, List.length_dropLast]
            refine ⟨⟨⟨?_, ?_⟩, ?_⟩, ?_⟩
            · omega
            · omega
            · omega
            · exact shapeOkL_iff _ _ |>.mpr fun c hc =>
                (shapeOkL_iff _ _).mp hlcs c ((List.dropLast_sublist lcs).mem hc)
          refine ⟨?_, ?_, ?_, ?_⟩
          · rw [borrowFromPrev, hcc]
            exact List.length_set _ _ _
          · rw [borrowFromPrev, hcc]
            rw [List.length_set, List.length_set]
          · rw [borrowFromPrev, hcc]
            exact shapeOkL_set (shapeOkL_set hall hchild2) hleft2
          · rw [borrowFromPrev, hcc]
            rw [getD_set_ne _ (idx - 1) idx (by omega),
              getD_set_self _ idx (by omega)]
            simp only [nodeCount, List.length_cons]
            omega

end BTreeJs

namespace BTreeJs

theorem borrowFromNext_cap {ks : List Nat} {cs : List Node} {idx h : Nat}
    (hall : shapeOkL cs h = true) (hlen : cs.length = ks.length + 1)
    (hidx : idx < ks.length)
    (hright : CAP ≤ nodeCount (cs.getD (idx + 1) dummyNode))
    (hchild : nodeCount (cs.getD idx dummyNode) < CAP) :
    (borrowFromNext ks cs idx).1.length = ks.length ∧
    (borrowFromNext ks cs idx).2.length = cs.length ∧
    shapeOkL (borrowFromNext ks cs idx).2 h = true ∧
    CAP ≤ nodeCount ((borrowFromNext ks cs idx).2.getD idx dummyNode) := by
  have hCAPe : CAP = 32 := rfl
  have hMAXKe : MAXK = 63 := rfl
  have hclt : idx < cs.length := by omega
  have hrlt : idx + 1 < cs.length := by omega
  have hsc := shapeOk_getD hall hclt
  have hsr := shapeOk_getD hall hrlt
  cases hcc : cs.getD idx dummyNode with
  | leaf cid ces =>
      rw [hcc] at hsc hchild
      obtain ⟨hh0, hces1, hces2⟩ := shapeOk_leaf_elim hsc
      subst hh0
      simp only [nodeCount] at hchild
      cases hrc : cs.getD (idx + 1) dummyNode with
      | internal rks rcs =>
          rw [hrc] at hsr
          simp only [shapeOk] at hsr; cases hsr
      | leaf rid res =>
          rw [hrc] at hsr hright
          obtain ⟨_, hres1, hres2⟩ := shapeOk_leaf_elim hsr
          simp only [nodeCount] at hright
          have hchild2 : shapeOk (Node.leaf cid
              (ces ++ [(entriesOf (cs.getD (idx + 1) dummyNode)).headD (0, 0)])) 0
              = true := by
            simp only [shapeOk, Bool.and_eq_true, decide_eq_true_eq,
              List.length_append, List.length_cons, List.length_nil]
            omega
          have hright2 : shapeOk (Node.leaf (idOf (cs.getD (idx + 1) dummyNode))
              ((entriesOf (cs.getD (idx + 1) dummyNode)).drop 1)) 0 = true := by
            simp only [hrc, entriesOf, idOf, shapeOk, Bool.and_eq_true,
              decide_eq_true_eq, List.length_drop]
            omega
          refine ⟨?_, ?_, ?_, ?_⟩
          · rw [borrowFromNext, hcc]
            exact List.length_set _ _ _
          · rw [borrowFromNext, hcc]
            rw [List.length_set, List.length_set]
          · rw [borrowFromNext, hcc]
            exact shapeOkL_set (shapeOkL_set hall hchild2) hright2
          · rw [borrowFromNext, hcc]
            rw [getD_set_ne _ (idx + 1) idx (by omega),
              getD_set_self _ idx (by omega)]
            simp only [nodeCount, List.length_append, List.length_cons, List.length_nil]
            omega
  | internal cks ccs =>
      rw [hcc] at hsc hchild
      obtain ⟨h2, hh2, hcks1, hcks2, hclen2, hccs⟩ := shapeOk_internal_elim hsc
      subst hh2
      simp only [nodeCount] at hchild
      cases hrc : cs.getD (idx + 1) dummyNode with
      | leaf rid res =>
          rw [hrc] at hsr
          simp only [shapeOk] at hsr; cases hsr
      | internal rks rcs =>
          rw [hrc] at hsr hright
          obtain ⟨h3, hh3, hrks1, hrks2, hrlen2, hrcs⟩ := shapeOk_internal_elim hsr
          cases hh3
          simp only [nodeCount] at hright
          have hrcsne : rcs ≠ [] := by
            intro hnil
            rw [hnil] at hrlen2
            simp at hrlen2
          have hchild2 : shapeOk (Node.internal
              (cks ++ [ks.getD idx 0])
              (ccs ++ [(childrenOf (cs.getD (idx + 1) dummyNode)).headD dummyNode]))
              (h2 + 1) = true := by
            simp only [shapeOk, Bool.and_eq_true, decide_eq_true_eq,
              List.length_append, List.length_cons, List.length_nil]
            refine ⟨⟨⟨?_, ?_⟩, ?_⟩, ?_⟩
            · omega
            · omega
            · omega
            · rw [shapeOkL_iff]
              intro c hc
              rcases List.mem_append.mp hc with hc | hc
              · exact (shapeOkL_iff _ _).mp hccs c hc
              · rw [List.mem_singleton.mp hc, hrc, childrenOf]
                exact shapeOk_headD hrcs hrcsne
          have hright2 : shapeOk (Node.internal
              ((keysOf (cs.getD (idx + 1) dummyNode)).drop 1)
              ((childrenOf (cs.getD (idx + 1) dummyNode)).drop 1)) (h2 + 1) = true := by
            simp only [hrc, keysOf, childrenOf, shapeOk, Bool.and_eq_true,
              decide_eq_true_eq, List.length_drop]
            refine ⟨⟨⟨?_, ?_⟩, ?_⟩, shapeOkL_drop _ hrcs⟩
            · omega
            · omega
            · omega
          refine ⟨?_, ?_, ?_, ?_⟩
          · rw [borrowFromNext, hcc]
            exact List.length_set _ _ _
          · rw [borrowFromNext, hcc]
            rw [List.length_set, List.length_set]
          · rw [borrowFromNext, hcc]
            exact shapeOkL_set (shapeOkL_set hall hchild2) hright2
          · rw [borrowFromNext, hcc]
            rw [getD_set_ne _ (idx + 1) idx (by omega),
              getD_set_self _ idx (by omega)]
            simp only [nodeCount, List.length_append, List.length_cons, List.length_nil]
            omega

theorem mergeNodes_cap {ks : List Nat} {cs : List Node} {idx h : Nat} {ch : ChainSt}
    (hall : shapeOkL cs h = true) (hlen : cs.length = ks.length + 1)
    (hidx : idx < ks.length)
    (hleft : nodeCount (cs.getD idx dummyNode) < CAP)
    (hright : nodeCount (cs.getD (idx + 1) dummyNode) < CAP) :
    (mergeNodes ks cs idx ch).1.length = ks.length - 1 ∧
    (mergeNodes ks cs idx ch).2.1.length = cs.length - 1 ∧
    shapeOkL (mergeNodes ks cs idx ch).2.1 h = true ∧
    CAP ≤ nodeCount ((mergeNodes ks cs idx ch).2.1.getD idx dummyNode) ∧
    nodeCount ((mergeNodes ks cs idx ch).2.1.getD idx dummyNode) ≤ MAXK := by
  have hCAPe : CAP = 32 := rfl
  have hMAXKe : MAXK = 63 := rfl
  have hclt : idx < cs.length := by omega
  have hrlt : idx + 1 < cs.length := by omega
  have hsc := shapeOk_getD hall hclt
  have hsr := shapeOk_getD hall hrlt
  have hgetDm : ∀ (m : Node),
      (((cs.set idx m).eraseIdx (idx + 1)).getD idx dummyNode) = m := by
    intro m
    rw [getD_eraseIdx_lt _ (idx + 1) idx (by omega), getD_set_self _ idx (by omega)]
  have hlenm : ∀ (m : Node),
      ((cs.set idx m).eraseIdx (idx + 1)).length = cs.length - 1 := by
    intro m
    rw [List.length_eraseIdx]
    rw [List.length_set]
    simp [hrlt]
  have hshapem : ∀ (m : Node), shapeOk m h = true →
      shapeOkL ((cs.set idx m).eraseIdx (idx + 1)) h = true := by
    intro m hm
    exact shapeOkL_eraseIdx (shapeOkL_set hall hm)
  cases hcc : cs.getD idx dummyNode with
  | leaf lid les =>
      rw [hcc] at hsc hleft
      obtain ⟨hh0, hles1, hles2⟩ := shapeOk_leaf_elim hsc
      subst hh0
      simp only [nodeCount] at hleft
      cases hrc : cs.getD (idx + 1) dummyNode with
      | internal rks rcs =>
          rw [hrc] at hsr
          simp only [shapeOk] at hsr; cases hsr
      | leaf rid res =>
          rw [hrc] at hsr hright
          obtain ⟨_, hres1, hres2⟩ := shapeOk_leaf_elim hsr
          simp only [nodeCount] at hright
          have hm : shapeOk (Node.leaf lid
              (les ++ entriesOf (cs.getD (idx + 1) dummyNode))) 0 = true := by
            simp only [hrc, entriesOf, shapeOk, Bool.and_eq_true,
              decide_eq_true_eq, List.length_append]
            omega
          refine ⟨?_, ?_, ?_, ?_, ?_⟩
          · rw [mergeNodes, hcc]
            rw [List.length_eraseIdx]
            simp [hidx]
          · rw [mergeNodes, hcc]
            exact hlenm _
          · rw [mergeNodes, hcc]
            exact hshapem _ hm
          · rw [mergeNodes, hcc, hgetDm]
            simp only [hrc, entriesOf, nodeCount, List.length_append]
            omega
          · rw [mergeNodes, hcc, hgetDm]
            simp only [hrc, entriesOf, nodeCount, List.length_append]
            omega
  | internal lks lcs =>
      rw [hcc] at hsc hleft
      obtain ⟨h2, hh2, hlks1, hlks2, hllen2, hlcs⟩ := shapeOk_internal_elim hsc
      subst hh2
      simp only [nodeCount] at hleft
      cases hrc : cs.getD (idx + 1) dummyNode with
      | leaf rid res =>
          rw [hrc] at hsr
          simp only [shapeOk] at hsr; cases hsr
      | internal rks rcs =>
          rw [hrc] at hsr hright
          obtain ⟨h3, hh3, hrks1, hrks2, hrlen2, hrcs⟩ := shapeOk_internal_elim hsr
          cases hh3
          simp only [nodeCount] at hright
          have hm : shapeOk (Node.internal
              (lks ++ ks.getD idx 0 :: keysOf (cs.getD (idx + 1) dummyNode))
              (lcs ++ childrenOf (cs.getD (idx + 1) dummyNode))) (h2 + 1) = true := by
            simp only [hrc, keysOf, childrenOf, shapeOk, Bool.and_eq_true,
              decide_eq_true_eq, List.length_append, List.length_cons]
            refine ⟨⟨⟨?_, ?_⟩, ?_⟩, ?_⟩
            · omega
            · omega
            · omega
            · rw [shapeOkL_iff]
              intro c hcm
              rcases List.mem_append.mp hcm with hcm | hcm
              · exact (shapeOkL_iff _ _).mp hlcs c hcm
              · exact (shapeOkL_iff _ _).mp hrcs c hcm
          refine ⟨?_, ?_, ?_, ?_, ?_⟩
          · rw [mergeNodes, hcc]
            rw [List.length_eraseIdx]
            simp [hidx]
          · rw [mergeNodes, hcc]
            exact hlenm _
          · rw [mergeNodes, hcc]
            exact hshapem _ hm
          · rw [mergeNodes, hcc, hgetDm]
            simp only [hrc, keysOf, nodeCount, List.length_append, List.length_cons]
            omega
          · rw [mergeNodes, hcc, hgetDm]
            simp only [hrc, keysOf, nodeCount, List.length_append, List.length_cons]
            omega

end BTreeJs

namespace BTreeJs

theorem fill_cap {ks : List Nat} {cs : List Node} {idx h : Nat} {ch : ChainSt}
    (hall : shapeOkL cs h = true) (hlen : cs.length = ks.length + 1)
    (hks : 1 ≤ ks.length) (hidx : idx ≤ ks.length)
    (hchild : nodeCount (cs.getD idx dummyNode) < CAP) :
    ks.length - 1 ≤ (fill ks cs idx ch).1.length ∧
    (fill ks cs idx ch).1.length ≤ ks.length ∧
    (fill ks cs idx ch).2.1.length = (fill ks cs idx ch).1.length + 1 ∧
    shapeOkL (fill ks cs idx ch).2.1 h = true ∧
    CAP ≤ nodeCount ((fill ks cs idx ch).2.1.getD
      (if idx = ks.length ∧ idx > (fill ks cs idx ch).1.length
       then idx - 1 else idx) dummyNode) ∧
    (if idx = ks.length ∧ idx > (fill ks cs idx ch).1.length
     then idx - 1 else idx) < (fill ks cs idx ch).1.length + 1 := by
  have hCAPe : CAP = 32 := rfl
  have hMAXKe : MAXK = 63 := rfl
  by_cases h1 : idx > 0 ∧ nodeCount (cs.getD (idx - 1) dummyNode) ≥ CAP
  · simp only [fill]
    rw [if_pos h1]
    have hfa : ((borrowFromPrev ks cs idx).1, (borrowFromPrev ks cs idx).2, ch).1 =
        (borrowFromPrev ks cs idx).1 := rfl
    have hfb : ((borrowFromPrev ks cs idx).1, (borrowFromPrev ks cs idx).2, ch).2.1 =
        (borrowFromPrev ks cs idx).2 := rfl
    rw [hfa, hfb]
    obtain ⟨hb1, hb2, hb3, hb4⟩ :=
      borrowFromPrev_cap hall hlen h1.1 hidx h1.2 hchild
    have hcond : ¬ (idx = ks.length ∧ idx > (borrowFromPrev ks cs idx).1.length) := by
      rw [hb1]; omega
    rw [if_neg hcond]
    refine ⟨by omega, by omega, by rw [hb2, hb1, hlen], hb3, hb4, by omega⟩
  · simp only [fill]
    rw [if_neg h1]
    by_cases h2 : idx < ks.length ∧ nodeCount (cs.getD (idx + 1) dummyNode) ≥ CAP
    · rw [if_pos h2]
      have hfa : ((borrowFromNext ks cs idx).1, (borrowFromNext ks cs idx).2, ch).1 =
          (borrowFromNext ks cs idx).1 := rfl
      have hfb : ((borrowFromNext ks cs idx).1, (borrowFromNext ks cs idx).2, ch).2.1 =
          (borrowFromNext ks cs idx).2 := rfl
      rw [hfa, hfb]
      obtain ⟨hb1, hb2, hb3, hb4⟩ :=
        borrowFromNext_cap hall hlen h2.1 h2.2 hchild
      have hcond : ¬ (idx = ks.length ∧ idx > (borrowFromNext ks cs idx).1.length) := by
        rw [hb1]; omega
      rw [if_neg hcond]
      refine ⟨by omega, by omega, by rw [hb2, hb1, hlen], hb3, hb4, by omega⟩
    · rw [if_neg h2]
      by_cases h3 : idx < ks.length
      · rw [if_pos h3]
        have hright : nodeCount (cs.getD (idx + 1) dummyNode) < CAP := by
          rcases Nat.lt_or_ge (nodeCount (cs.getD (idx + 1) dummyNode)) CAP with hq | hq
          · exact hq
          · exact absurd ⟨h3, hq⟩ h2
        obtain ⟨hm1, hm2, hm3, hm4, hm5⟩ :=
          @mergeNodes_cap _ _ _ _ ch hall hlen h3 hchild hright
        have hcond : ¬ (idx = ks.length ∧ idx > (mergeNodes ks cs idx ch).1.length) := by
          intro hq
          omega
        rw [if_neg hcond]
        refine ⟨by omega, by omega, by omega, hm3, hm4, by omega⟩
      · rw [if_neg h3]
        have hq : idx = ks.length := by omega
        have hi1 : 1 ≤ idx := by omega
        have hleft : nodeCount (cs.getD (idx - 1) dummyNode) < CAP := by
          rcases Nat.lt_or_ge (nodeCount (cs.getD (idx - 1) dummyNode)) CAP with hw | hw
          · exact hw
          · exact absurd ⟨by omega, hw⟩ h1
        have hidxm : idx - 1 < ks.length := by omega
        have hrge : idx - 1 + 1 = idx := by omega
        have hrightm : nodeCount (cs.getD (idx - 1 + 1) dummyNode) < CAP := by
          rw [hrge]; exact hchild
        obtain ⟨hm1, hm2, hm3, hm4, hm5⟩ :=
          @mergeNodes_cap _ _ _ _ ch hall hlen hidxm hleft hrightm
        have hcond : idx = ks.length ∧ idx > (mergeNodes ks cs (idx - 1) ch).1.length := by
          constructor
          · exact hq
          · omega
        rw [if_pos hcond]
        refine ⟨by omega, by omega, by omega, hm3, hm4, by omega⟩

end BTreeJs

namespace BTreeJs

theorem removeFromNode_cap :
    ∀ (fuel : Nat) (g : Nat → Bool) (n : Node) (h key ctr : Nat) (ch : ChainSt),
      rootOkH n h = true →
      midOkH (removeFromNode fuel g n key ctr ch).1 h = true ∧
      nodeCount n - 1 ≤ nodeCount (removeFromNode fuel g n key ctr ch).1 ∧
      nodeCount (removeFromNode fuel g n key ctr ch).1 ≤ nodeCount n := by
  intro fuel
  induction fuel with
  | zero =>
      intro g n h key ctr ch hr
      have he : (removeFromNode 0 g n key ctr ch).1 = n := rfl
      rw [he]
      exact ⟨midOkH_of_rootOkH hr, Nat.sub_le _ _, le_refl _⟩
  | succ fuel ih =>
      intro g n h key ctr ch hr
      have hCAPe : CAP = 32 := rfl
      have hMAXKe : MAXK = 63 := rfl
      cases n with
      | leaf id es =>
          cases h with
          | succ h => simp only [rootOkH] at hr; cases hr
          | zero =>
              simp only [rootOkH, decide_eq_true_eq] at hr
              simp only [removeFromNode]
              have hel := eraseFirstMatch_length key es
              by_cases hs : (leafPunScan es key g ctr).1 = true
              · rw [if_pos hs]
                simp only [midOkH, nodeCount, decide_eq_true_eq]
                refine ⟨by omega, by omega, by omega⟩
              · rw [if_neg hs]
                simp only [midOkH, nodeCount, decide_eq_true_eq]
                refine ⟨by omega, by omega, by omega⟩
      | internal ks cs =>
          cases h with
          | zero => simp only [rootOkH] at hr; cases hr
          | succ h2 =>
              simp only [rootOkH, Bool.and_eq_true, decide_eq_true_eq] at hr
              obtain ⟨⟨⟨hk1, hk2⟩, hlen⟩, hcs⟩ := hr
              simp only [removeFromNode]
              have hile : lowerBoundIdx ks key ≤ ks.length :=
                lowerBoundIdx_le_length ks key
              by_cases hA : lowerBoundIdx ks key < ks.length ∧
                  ¬ key < ks.getD (lowerBoundIdx ks key) 0 ∧
                  ¬ ks.getD (lowerBoundIdx ks key) 0 < key
              · rw [if_pos hA]
                have hclt : lowerBoundIdx ks key < cs.length := by omega
                have hrlt : lowerBoundIdx ks key + 1 < cs.length := by omega
                by_cases hL : nodeCount (cs.getD (lowerBoundIdx ks key) dummyNode) ≥ CAP
                · rw [if_pos hL]
                  have hsh := shapeOk_getD hcs hclt
                  have hbounds := shapeOk_count_bounds hsh
                  obtain ⟨ihm, ihlo, ihhi⟩ := ih g _ h2
                    (getPredecessor cs (lowerBoundIdx ks key)) ctr ch
                    (rootOkH_of_shapeOk hsh)
                  refine ⟨?_, ?_, ?_⟩
                  · simp only [midOkH, Bool.and_eq_true, decide_eq_true_eq]
                    refine ⟨⟨?_, ?_⟩, ?_⟩
                    · rw [List.length_set]; omega
                    · rw [List.length_set, List.length_set]; omega
                    · exact shapeOkL_set hcs (shapeOk_of_midOkH ihm (by omega))
                  · simp only [nodeCount]; rw [List.length_set]; omega
                  · simp only [nodeCount]; rw [List.length_set]
                · rw [if_neg hL]
                  by_cases hR : nodeCount (cs.getD (lowerBoundIdx ks key + 1) dummyNode) ≥ CAP
                  · rw [if_pos hR]
                    have hsh := shapeOk_getD hcs hrlt
                    have hbounds := shapeOk_count_bounds hsh
                    obtain ⟨ihm, ihlo, ihhi⟩ := ih g _ h2
                      (getSuccessor cs (lowerBoundIdx ks key)) ctr ch
                      (rootOkH_of_shapeOk hsh)
                    refine ⟨?_, ?_, ?_⟩
                    · simp only [midOkH, Bool.and_eq_true, decide_eq_true_eq]
                      refine ⟨⟨?_, ?_⟩, ?_⟩
                      · rw [List.length_set]; omega
                      · rw [List.length_set, List.length_set]; omega
                      · exact shapeOkL_set hcs (shapeOk_of_midOkH ihm (by omega))
                    · simp only [nodeCount]; rw [List.length_set]; omega
                    · simp only [nodeCount]; rw [List.length_set]
                  · rw [if_neg hR]
                    obtain ⟨hm1, hm2, hm3, hm4, hm5⟩ :=
                      @mergeNodes_cap _ _ _ _ ch hcs hlen hA.1 (by omega) (by omega)
                    have hmlt : lowerBoundIdx ks key <
                        (mergeNodes ks cs (lowerBoundIdx ks key) ch).2.1.length := by
                      omega
                    have hshm := shapeOk_getD hm3 hmlt
                    have hbm := shapeOk_count_bounds hshm
                    obtain ⟨ihm, ihlo, ihhi⟩ := ih g _ h2 key ctr
                      (mergeNodes ks cs (lowerBoundIdx ks key) ch).2.2
                      (rootOkH_of_shapeOk hshm)
                    refine ⟨?_, ?_, ?_⟩
                    · simp only [midOkH, Bool.and_eq_true, decide_eq_true_eq]
                      refine ⟨⟨?_, ?_⟩, ?_⟩
                      · omega
                      · rw [List.length_set]; omega
                      · exact shapeOkL_set hm3 (shapeOk_of_midOkH ihm (by omega))
                    · simp only [nodeCount]; omega
                    · simp only [nodeCount]; omega
              · rw [if_neg hA]
                have hclt : lowerBoundIdx ks key < cs.length := by omega
                by_cases hfq : nodeCount (cs.getD (lowerBoundIdx ks key) dummyNode) < CAP
                · rw [if_pos hfq]
                  obtain ⟨hf1, hf2, hf3, hf4, hf5, hf6⟩ :=
                    @fill_cap _ _ _ _ ch hcs hlen (by omega) hile hfq
                  have htlt : (if lowerBoundIdx ks key = ks.length ∧
                      lowerBoundIdx ks key > (fill ks cs (lowerBoundIdx ks key) ch).1.length
                      then lowerBoundIdx ks key - 1 else lowerBoundIdx ks key) <
                      (fill ks cs (lowerBoundIdx ks key) ch).2.1.length := by
                    omega
                  have hsht := shapeOk_getD hf4 htlt
                  have hbt := shapeOk_count_bounds hsht
                  obtain ⟨ihm, ihlo, ihhi⟩ := ih g _ h2 key ctr
                    (fill ks cs (lowerBoundIdx ks key) ch).2.2
                    (rootOkH_of_shapeOk hsht)
                  refine ⟨?_, ?_, ?_⟩
                  · simp only [midOkH, Bool.and_eq_true, decide_eq_true_eq]
                    refine ⟨⟨?_, ?_⟩, ?_⟩
                    · omega
                    · rw [List.length_set]; omega
                    · exact shapeOkL_set hf4 (shapeOk_of_midOkH ihm (by omega))
                  · simp only [nodeCount]; omega
                  · simp only [nodeCount]; omega
                · rw [if_neg hfq]
                  have hpa : ((ks, cs, ch) :
                      List Nat × List Node × ChainSt).1 = ks := rfl
                  have hpb : ((ks, cs, ch) :
                      List Nat × List Node × ChainSt).2.1 = cs := rfl
                  have hpc : ((ks, cs, ch) :
                      List Nat × List Node × ChainSt).2.2 = ch := rfl
                  rw [hpa, hpb, hpc]
                  have hcond : ¬ (lowerBoundIdx ks key = ks.length ∧
                      lowerBoundIdx ks key > ks.length) := by
                    omega
                  rw [if_neg hcond]
                  have hsht := shapeOk_getD hcs hclt
                  have hbt := shapeOk_count_bounds hsht
                  obtain ⟨ihm, ihlo, ihhi⟩ := ih g _ h2 key ctr ch
                    (rootOkH_of_shapeOk hsht)
                  refine ⟨?_, ?_, ?_⟩
                  · simp only [midOkH, Bool.and_eq_true, decide_eq_true_eq]
                    refine ⟨⟨?_, ?_⟩, ?_⟩
                    · omega
                    · rw [List.length_set]; omega
                    · exact shapeOkL_set hcs (shapeOk_of_midOkH ihm (by omega))
                  · simp only [nodeCount]; omega
                  · simp only [nodeCount]; omega

end BTreeJs

namespace BTreeJs

theorem rootOkH_count_le {n : Node} {h : Nat} (hr : rootOkH n h = true) :
    nodeCount n ≤ MAXK := by
  cases n with
  | leaf id es =>
      cases h with
      | zero =>
          simp only [rootOkH, decide_eq_true_eq] at hr
          simpa only [nodeCount] using hr
      | succ h => simp only [rootOkH] at hr; cases hr
  | internal ks cs =>
      cases h with
      | zero => simp only [rootOkH] at hr; cases hr
      | succ h =>
          simp only [rootOkH, Bool.and_eq_true, decide_eq_true_eq] at hr
          simpa only [nodeCount] using hr.1.1.2

theorem shapeOk_of_rootOkH_full {n : Node} {h : Nat} (hr : rootOkH n h = true)
    (hf : nodeCount n = MAXK) : shapeOk n h = true := by
  have hCAPe : CAP = 32 := rfl
  have hMAXKe : MAXK = 63 := rfl
  cases n with
  | leaf id es =>
      cases h with
      | zero =>
          simp only [rootOkH, decide_eq_true_eq] at hr
          simp only [nodeCount] at hf
          simp only [shapeOk, Bool.and_eq_true, decide_eq_true_eq]
          exact ⟨by omega, hr⟩
      | succ h => simp only [rootOkH] at hr; cases hr
  | internal ks cs =>
      cases h with
      | zero => simp only [rootOkH] at hr; cases hr
      | succ h =>
          simp only [rootOkH, Bool.and_eq_true, decide_eq_true_eq] at hr
          simp only [nodeCount] at hf
          simp only [shapeOk, Bool.and_eq_true, decide_eq_true_eq]
          exact ⟨⟨⟨by omega, hr.1.1.2⟩, hr.1.2⟩, hr.2⟩

theorem shapeOkL_allCapOkL :
    ∀ (cs : List Node) (h : Nat), shapeOkL cs h = true → allCapOkL cs = true := by
  intro cs
  induction cs with
  | nil => intro h _; rfl
  | cons c cs ih =>
      intro h hs
      simp only [shapeOkL, Bool.and_eq_true] at hs
      simp only [allCapOkL, Bool.and_eq_true]
      exact ⟨shapeOk_allCapOk c h hs.1, ih h hs.2⟩

theorem rootOkH_nonRootCapOk {n : Node} {h : Nat} (hr : rootOkH n h = true) :
    nonRootCapOk n = true := by
  cases n with
  | leaf id es => rfl
  | internal ks cs =>
      cases h with
      | zero => simp only [rootOkH] at hr; cases hr
      | succ h =>
          simp only [rootOkH, Bool.and_eq_true] at hr
          simp only [nonRootCapOk]
          exact shapeOkL_allCapOkL cs h hr.2

theorem insertT_root_cap {st : BTState} {key val h : Nat}
    (hr : rootOkH st.root h = true) :
    ∃ h2, rootOkH (insertT st key val).1.root h2 = true := by
  have hCAPe : CAP = 32 := rfl
  have hMAXKe : MAXK = 63 := rfl
  have hle := rootOkH_count_le hr
  simp only [insertT]
  by_cases hfull : nodeCount st.root ≥ MAXK
  · rw [if_pos hfull]
    have hfe : nodeCount st.root = MAXK := by omega
    have hsh : shapeOkL [st.root] h = true := by
      simp only [shapeOkL, Bool.and_eq_true]
      exact ⟨shapeOk_of_rootOkH_full hr hfe, trivial⟩
    have hget : nodeCount (([st.root] : List Node).getD 0 dummyNode) = MAXK := hfe
    obtain ⟨hs1, hs2, hs3, hs4, hs5⟩ :=
      @splitChild_cap [] [st.root] 0 h st.chain hsh rfl (Nat.zero_le _) hget
    have hnil : ([] : List Nat).length = 0 := rfl
    have hone : ([st.root] : List Node).length = 1 := rfl
    have hrootN : rootOkH (Node.internal (splitChild [] [st.root] 0 st.chain).1
        (splitChild [] [st.root] 0 st.chain).2.1) (h + 1) = true := by
      simp only [rootOkH, Bool.and_eq_true, decide_eq_true_eq]
      exact ⟨⟨⟨by omega, by omega⟩, by omega⟩, hs3⟩
    have hcntN : nodeCount (Node.internal (splitChild [] [st.root] 0 st.chain).1
        (splitChild [] [st.root] 0 st.chain).2.1) < MAXK := by
      simp only [nodeCount]; omega
    refine ⟨h + 1, ?_⟩
    exact (insertNonFull_cap _ _ (h + 1) key val _ hrootN hcntN).1
  · rw [if_neg hfull]
    refine ⟨h, ?_⟩
    exact (insertNonFull_cap _ _ h key val _ hr (by omega)).1

theorem removeT_root_cap {g : Nat → Bool} {st : BTState} {key ctr h : Nat}
    (hr : rootOkH st.root h = true) :
    ∃ h2, rootOkH (removeT g st key ctr).2.1.root h2 = true := by
  have hmid :=
    (removeFromNode_cap (heightN st.root + 1) g st.root h key ctr st.chain hr).1
  simp only [removeT]
  cases hres : (removeFromNode (heightN st.root + 1) g st.root key ctr st.chain).1 with
  | leaf id es =>
      rw [hres] at hmid
      cases h with
      | succ h => simp only [midOkH] at hmid; cases hmid
      | zero =>
          refine ⟨0, ?_⟩
          show rootOkH (Node.leaf id es) 0 = true
          simpa only [midOkH, rootOkH] using hmid
  | internal ks cs =>
      rw [hres] at hmid
      cases h with
      | zero => simp only [midOkH] at hmid; cases hmid
      | succ h =>
          simp only [midOkH, Bool.and_eq_true, decide_eq_true_eq] at hmid
          cases ks with
          | nil =>
              cases cs with
              | nil => simp only [List.length_nil] at hmid; omega
              | cons c cs2 =>
                  refine ⟨h, ?_⟩
                  show rootOkH ((c :: cs2).headD dummyNode) h = true
                  simp only [shapeOkL, Bool.and_eq_true] at hmid
                  exact rootOkH_of_shapeOk hmid.2.1
          | cons k ks2 =>
              refine ⟨h + 1, ?_⟩
              show rootOkH (Node.internal (k :: ks2) cs) (h + 1) = true
              simp only [rootOkH, Bool.and_eq_true, decide_eq_true_eq]
              refine ⟨⟨⟨?_, hmid.1.1⟩, hmid.1.2⟩, hmid.2⟩
              simp only [List.length_cons]
              omega

theorem applyOp_root_cap (g : Nat → Bool) (p : BTState × Nat) (op : Op) (h : Nat)
    (hr : rootOkH p.1.root h = true) :
    ∃ h2, rootOkH (applyOp g p op).1.root h2 = true := by
  obtain ⟨st, ctr⟩ := p
  cases op with
  | ins k v => exact insertT_root_cap hr
  | del k => exact removeT_root_cap hr

theorem foldl_applyOp_root_cap (g : Nat → Bool) :
    ∀ (ops : List Op) (p : BTState × Nat) (h : Nat),
      rootOkH p.1.root h = true →
      ∃ h2, rootOkH (ops.foldl (applyOp g) p).1.root h2 = true := by
  intro ops
  induction ops with
  | nil => intro p h hr; exact ⟨h, hr⟩
  | cons op ops ih =>
      intro p h hr
      obtain ⟨h2, hr2⟩ := applyOp_root_cap g p op h hr
      exact ih (applyOp g p op) h2 hr2

/-- C8: starting from the freshly constructed (empty) tree and applying any
sequence of the public operations insert and remove (with any outcome g of
the indeterminate union reads inside remove), every non-root node of the
resulting tree holds at least s_CAPACITY - 1 = 31 and at most
s_MAX_KEYS = 2 * s_CAPACITY - 1 = 63 keys/entries. -/
theorem c8_non_root_capacity_invariant (g : Nat → Bool) (ops : List Op) :
    nonRootCapOk (applyOps g ops).1.root = true := by
  obtain ⟨h2, hr2⟩ := foldl_applyOp_root_cap g ops (initState, 0) 0 (by rfl)
  exact rootOkH_nonRootCapOk hr2

end BTreeJs

namespace BTreeJs

/-- The prevLeaf map realises the list of leaf ids as the inverse chain:
starting from the given predecessor (null for the whole tree), each id maps
back to the id before it. -/
def chainPrevOk (m : LinkMap) : Option Nat → List Nat → Bool
  | _, [] => true
  | p, a :: rest => lmGet m a == p && chainPrevOk m (some a) rest

/-- Forward traversal of the leaf chain described by claim C9: from a leaf,
repeatedly follow n = n->nextLeaf (as the iterator and the range walks do,
btree.cpp:2192), listing each visited leaf with its entries.  Fuel bounds
the number of hops. -/
def walkNext (root : Node) (ch : ChainSt) :
    Nat → Option (Nat × List Entry) → List (Nat × List Entry)
  | 0, _ => []
  | _ + 1, none => []
  | fuel + 1, some (id, es) =>
      (id, es) :: walkNext root ch fuel (hopNext root ch id)

/-- The leftmost leaf of the tree (the descent of BTree::begin,
btree.cpp:2430) as a chain position. -/
def startLeaf (st : BTState) : Option (Nat × List Entry) :=
  match leftmostLeaf (heightN st.root) st.root with
  | .leaf id es => some (id, es)
  | .internal _ _ => none

/-- The full forward traversal of the leaf chain from the leftmost leaf. -/
def chainWalk (st : BTState) : List (Nat × List Entry) :=
  walkNext st.root st.chain (walkFuel st.root) (startLeaf st)

/-- Follow n = n->prevLeaf: read the prevLeaf field of the current leaf and
resolve the pointed-to leaf. -/
def hopPrev (root : Node) (ch : ChainSt) (id : Nat) : Option (Nat × List Entry) :=
  match lmGet ch.prev id with
  | none => none
  | some pid =>
      match findLeafN root pid with
      | some es => some (pid, es)
      | none => none

/-- Mirror of the begin descent along last children: the rightmost leaf. -/
def rightmostLeaf (fuel : Nat) (n : Node) : Node :=
  match fuel, n with
  | fuel + 1, .internal _ cs => rightmostLeaf fuel (cs.getLastD dummyNode)
  | _, n => n

/-- The rightmost leaf as a chain position. -/
def endLeaf (st : BTState) : Option (Nat × List Entry) :=
  match rightmostLeaf (heightN st.root) st.root with
  | .leaf id es => some (id, es)
  | .internal _ _ => none

/-- Backward traversal of the leaf chain described by claim C9: from a leaf,
repeatedly follow n = n->prevLeaf. -/
def walkPrev (root : Node) (ch : ChainSt) :
    Nat → Option (Nat × List Entry) → List (Nat × List Entry)
  | 0, _ => []
  | _ + 1, none => []
  | fuel + 1, some (id, es) =>
      (id, es) :: walkPrev root ch fuel (hopPrev root ch id)

/-- The full backward traversal of the leaf chain from the rightmost leaf. -/
def chainWalkRev (st : BTState) : List (Nat × List Entry) :=
  walkPrev st.root st.chain (walkFuel st.root) (endLeaf st)

/-- Resting-state chain invariants: the search-structure invariants together
with a prevLeaf map that is the inverse of the nextLeaf chain (first leaf
mapping back to null). -/
def validChainState (st : BTState) : Bool :=
  validSearchState st && chainPrevOk st.chain.prev none (leafIdsN st.root)

/-- Public operation sequence reaching the C9 counterexample state: insert
keys 0..63 (splitting the root leaf at the 64th insert and promoting
separator 32), then insert key 32 again with value 99. -/
def exOps65 : List Op :=
  (List.range 64).map (fun i => Op.ins i i) ++ [Op.ins 32 99]

/-- The state reached by exOps65 (no removes happen, so the union-read
oracle is irrelevant; it is fixed to false). -/
def exTree65 : BTState := (applyOps (fun _ => false) exOps65).1

end BTreeJs

namespace BTreeJs

theorem wfCs_head : ∀ (ks : List Nat) (cs : List Node) (lo hi : Option Nat),
    wfCs ks cs lo hi = true →
    ∃ c cs2 hiC, cs = c :: cs2 ∧ wfB c lo hiC = true := by
  intro ks cs lo hi h
  cases ks with
  | nil =>
      cases cs with
      | nil => rw [show wfCs [] [] lo hi = false from rfl] at h; cases h
      | cons c cs2 =>
          cases cs2 with
          | nil => exact ⟨c, [], hi, rfl, h⟩
          | cons c2 rest =>
              rw [show wfCs [] (c :: c2 :: rest) lo hi = false from rfl] at h
              cases h
  | cons k ks2 =>
      cases cs with
      | nil => rw [show wfCs (k :: ks2) [] lo hi = false from rfl] at h; cases h
      | cons c cs2 =>
          have h2 : (inBnd lo hi k && wfB c lo (some k) &&
              wfCs ks2 cs2 (some k) hi) = true := h
          rw [Bool.and_eq_true, Bool.and_eq_true] at h2
          exact ⟨c, cs2, some k, rfl, h2.1.2⟩

theorem wfCs_last : ∀ (ks : List Nat) (cs : List Node) (lo hi : Option Nat),
    wfCs ks cs lo hi = true →
    ∃ cs2 c loC, cs = cs2 ++ [c] ∧ wfB c loC hi = true := by
  intro ks
  induction ks with
  | nil =>
      intro cs lo hi h
      cases cs with
      | nil => rw [show wfCs [] [] lo hi = false from rfl] at h; cases h
      | cons c cs2 =>
          cases cs2 with
          | nil => exact ⟨[], c, lo, rfl, h⟩
          | cons c2 rest =>
              rw [show wfCs [] (c :: c2 :: rest) lo hi = false from rfl] at h
              cases h
  | cons k ks2 ih =>
      intro cs lo hi h
      cases cs with
      | nil => rw [show wfCs (k :: ks2) [] lo hi = false from rfl] at h; cases h
      | cons c cs2 =>
          have h2 : (inBnd lo hi k && wfB c lo (some k) &&
              wfCs ks2 cs2 (some k) hi) = true := h
          rw [Bool.and_eq_true, Bool.and_eq_true] at h2
          obtain ⟨cs3, cl, loC, hcs2, hwf⟩ := ih cs2 (some k) hi h2.2
          refine ⟨c :: cs3, cl, loC, ?_, hwf⟩
          rw [hcs2]
          rfl

theorem leftmostLeaf_spec :
    ∀ (fuel : Nat) (n : Node) (lo hi : Option Nat),
      wfB n lo hi = true → heightN n ≤ fuel →
      ∃ id es B, leavesN n = (id, es) :: B ∧
        leftmostLeaf fuel n = Node.leaf id es := by
  intro fuel
  induction fuel with
  | zero =>
      intro n lo hi hwf hh
      cases n with
      | leaf id es => exact ⟨id, es, [], rfl, rfl⟩
      | internal ks cs => simp only [heightN] at hh; omega
  | succ fuel ih =>
      intro n lo hi hwf hh
      cases n with
      | leaf id es => exact ⟨id, es, [], rfl, rfl⟩
      | internal ks cs =>
          rw [wfB_internal_eq] at hwf
          obtain ⟨c, cs2, hiC, hcs, hwfc⟩ := wfCs_head ks cs lo hi hwf
          have hhc : heightN c ≤ fuel := by
            have h1 : heightN c ≤ heightL cs :=
              heightN_le_of_mem (by rw [hcs]; exact List.mem_cons_self _ _)
            simp only [heightN] at hh
            omega
          obtain ⟨id, es, B, hleaves, hleft⟩ := ih c lo hiC hwfc hhc
          refine ⟨id, es, B ++ leavesL cs2, ?_, ?_⟩
          · show leavesN (Node.internal ks cs) = _
            rw [leavesN, hcs, leavesL, hleaves]
            rfl
          · have hstep : leftmostLeaf (fuel + 1) (Node.internal ks cs) =
                leftmostLeaf fuel (cs.headD dummyNode) := rfl
            rw [hstep, hcs]
            exact hleft

theorem rightmostLeaf_spec :
    ∀ (fuel : Nat) (n : Node) (lo hi : Option Nat),
      wfB n lo hi = true → heightN n ≤ fuel →
      ∃ A id es, leavesN n = A ++ [(id, es)] ∧
        rightmostLeaf fuel n = Node.leaf id es := by
  intro fuel
  induction fuel with
  | zero =>
      intro n lo hi hwf hh
      cases n with
      | leaf id es => exact ⟨[], id, es, rfl, rfl⟩
      | internal ks cs => simp only [heightN] at hh; omega
  | succ fuel ih =>
      intro n lo hi hwf hh
      cases n with
      | leaf id es => exact ⟨[], id, es, rfl, rfl⟩
      | internal ks cs =>
          rw [wfB_internal_eq] at hwf
          obtain ⟨cs2, c, loC, hcs, hwfc⟩ := wfCs_last ks cs lo hi hwf
          have hhc : heightN c ≤ fuel := by
            have h1 : heightN c ≤ heightL cs :=
              heightN_le_of_mem (by rw [hcs]; exact List.mem_append_right _ (List.mem_cons_self _ _))
            simp only [heightN] at hh
            omega
          obtain ⟨A, id, es, hleaves, hright⟩ := ih c loC hi hwfc hhc
          refine ⟨leavesL cs2 ++ A, id, es, ?_, ?_⟩
          · show leavesN (Node.internal ks cs) = _
            rw [leavesN, hcs, leavesL_append]
            rw [show leavesL [c] = leavesN c ++ leavesL [] from rfl]
            rw [hleaves]
            simp [leavesL]
          · have hstep : rightmostLeaf (fuel + 1) (Node.internal ks cs) =
                rightmostLeaf fuel (cs.getLastD dummyNode) := rfl
            rw [hstep, hcs]
            have hlast : (cs2 ++ [c]).getLastD dummyNode = c := by
              simp [List.getLastD_concat]
            rw [hlast]
            exact hright

end BTreeJs

namespace BTreeJs

theorem walkNext_none (root : Node) (ch : ChainSt) :
    ∀ fuel, walkNext root ch fuel none = [] := by
  intro fuel
  cases fuel with
  | zero => rfl
  | succ fuel => rfl

theorem walkNext_spec (root : Node) (ch : ChainSt)
    (hchain : chainNextOk ch.next ((leavesN root).map Prod.fst) = true)
    (hnd : ((leavesN root).map Prod.fst).Nodup) :
    ∀ (B A : List (Nat × List Entry)) (id : Nat) (es : List Entry),
      leavesN root = A ++ (id, es) :: B →
      ∀ fuel, B.length < fuel →
      walkNext root ch fuel (some (id, es)) = (id, es) :: B := by
  intro B
  induction B with
  | nil =>
      intro A id es hdec fuel hf
      cases fuel with
      | zero => omega
      | succ fuel =>
          have hstep : walkNext root ch (fuel + 1) (some (id, es)) =
              (id, es) :: walkNext root ch fuel (hopNext root ch id) := rfl
          rw [hstep]
          rw [hopNext_spec root ch hchain hnd A id es [] hdec]
          exact congrArg (List.cons (id, es)) (walkNext_none root ch fuel)
  | cons p B2 ih =>
      intro A id es hdec fuel hf
      obtain ⟨id2, es2⟩ := p
      cases fuel with
      | zero => omega
      | succ fuel =>
          have hstep : walkNext root ch (fuel + 1) (some (id, es)) =
              (id, es) :: walkNext root ch fuel (hopNext root ch id) := rfl
          rw [hstep]
          rw [hopNext_spec root ch hchain hnd A id es ((id2, es2) :: B2) hdec]
          have hdec2 : leavesN root = (A ++ [(id, es)]) ++ (id2, es2) :: B2 := by
            rw [hdec]
            simp
          have hlen : B2.length < fuel := by
            rw [List.length_cons] at hf
            omega
          have hrec := ih (A ++ [(id, es)]) id2 es2 hdec2 fuel hlen
          exact congrArg (List.cons (id, es)) hrec

theorem leavesN_length_eq (n : Node) :
    (leafIdsN n).length = (leavesN n).length := by
  rw [leafIds_eq_map_fst, List.length_map]

theorem chainWalk_eq_leaves (st : BTState) (h : validChainState st = true) :
    chainWalk st = leavesN st.root := by
  rw [validChainState, Bool.and_eq_true] at h
  rw [validSearchState, Bool.and_eq_true, Bool.and_eq_true] at h
  obtain ⟨⟨⟨hwf, hchain⟩, hnd⟩, _⟩ := h
  rw [leafIds_eq_map_fst] at hchain hnd
  have hnd2 : ((leavesN st.root).map Prod.fst).Nodup := of_decide_eq_true hnd
  obtain ⟨id, es, B, hleaves, hleft⟩ :=
    leftmostLeaf_spec (heightN st.root) st.root none none hwf (le_refl _)
  have hstart : startLeaf st = some (id, es) := by
    rw [startLeaf, hleft]
  rw [chainWalk, hstart]
  have hfuel : B.length < walkFuel st.root := by
    have h1 : (leafIdsN st.root).length = B.length + 1 := by
      rw [leavesN_length_eq, hleaves, List.length_cons]
    rw [walkFuel]
    omega
  rw [walkNext_spec st.root st.chain hchain hnd2 B [] id es hleaves
    (walkFuel st.root) hfuel]
  rw [hleaves]

end BTreeJs

namespace BTreeJs

theorem chainPrevOk_pair (m : LinkMap) :
    ∀ (P : List Nat) (p0 : Option Nat) (a b : Nat) (Q : List Nat),
      chainPrevOk m p0 (P ++ a :: b :: Q) = true → lmGet m b = some a := by
  intro P
  induction P with
  | nil =>
      intro p0 a b Q h
      rw [List.nil_append, chainPrevOk, Bool.and_eq_true] at h
      have h2 := h.2
      rw [chainPrevOk, Bool.and_eq_true] at h2
      simpa using eq_of_beq h2.1
  | cons p P2 ih =>
      intro p0 a b Q h
      rw [List.cons_append, chainPrevOk, Bool.and_eq_true] at h
      exact ih (some p) a b Q h.2

theorem hopPrev_spec (root : Node) (ch : ChainSt)
    (hprev : chainPrevOk ch.prev none ((leavesN root).map Prod.fst) = true)
    (hnd : ((leavesN root).map Prod.fst).Nodup)
    (A : List (Nat × List Entry)) (ida : Nat) (esa : List Entry)
    (idb : Nat) (esb : List Entry) (B : List (Nat × List Entry))
    (hdec : leavesN root = A ++ (ida, esa) :: (idb, esb) :: B) :
    hopPrev root ch idb = some (ida, esa) := by
  have hshape : (leavesN root).map Prod.fst =
      A.map Prod.fst ++ ida :: idb :: B.map Prod.fst := by
    rw [hdec]
    simp
  have hget : lmGet ch.prev idb = some ida := by
    rw [hshape] at hprev
    exact chainPrevOk_pair ch.prev (A.map Prod.fst) none ida idb (B.map Prod.fst) hprev
  have hmem : (ida, esa) ∈ leavesN root := by
    rw [hdec]
    exact List.mem_append_right _ (List.mem_cons_self _ _)
  have hfind : findLeafN root ida = some esa := by
    refine findLeafN_of_mem root ida esa hmem ?_
    rw [leafIds_eq_map_fst]
    exact hnd
  rw [hopPrev, hget]
  simp [hfind]

theorem hopPrev_first (root : Node) (ch : ChainSt)
    (hprev : chainPrevOk ch.prev none ((leavesN root).map Prod.fst) = true)
    (id : Nat) (es : List Entry) (B : List (Nat × List Entry))
    (hdec : leavesN root = (id, es) :: B) :
    hopPrev root ch id = none := by
  have hshape : (leavesN root).map Prod.fst = id :: B.map Prod.fst := by
    rw [hdec]
    simp
  rw [hshape, chainPrevOk, Bool.and_eq_true] at hprev
  have hget : lmGet ch.prev id = none := by simpa using eq_of_beq hprev.1
  rw [hopPrev, hget]

theorem walkPrev_none (root : Node) (ch : ChainSt) :
    ∀ fuel, walkPrev root ch fuel none = [] := by
  intro fuel
  cases fuel with
  | zero => rfl
  | succ fuel => rfl

theorem walkPrev_spec (root : Node) (ch : ChainSt)
    (hprev : chainPrevOk ch.prev none ((leavesN root).map Prod.fst) = true)
    (hnd : ((leavesN root).map Prod.fst).Nodup) :
    ∀ (fuel : Nat) (A B : List (Nat × List Entry)) (id : Nat) (es : List Entry),
      leavesN root = A ++ (id, es) :: B → A.length < fuel →
      walkPrev root ch fuel (some (id, es)) = (id, es) :: A.reverse := by
  intro fuel
  induction fuel with
  | zero => intro A B id es hdec hf; omega
  | succ fuel ih =>
      intro A B id es hdec hf
      have hstep : walkPrev root ch (fuel + 1) (some (id, es)) =
          (id, es) :: walkPrev root ch fuel (hopPrev root ch id) := rfl
      rw [hstep]
      rcases List.eq_nil_or_concat A with rfl | ⟨A2, p, rfl⟩
      · rw [hopPrev_first root ch hprev id es B hdec]
        rw [walkPrev_none]
        rfl
      · obtain ⟨ida, esa⟩ := p
        have hdec2 : leavesN root = A2 ++ (ida, esa) :: (id, es) :: B := by
          rw [hdec]
          simp
        rw [hopPrev_spec root ch hprev hnd A2 ida esa id es B hdec2]
        have hlen : A2.length < fuel := by
          rw [List.length_concat] at hf
          omega
        rw [ih A2 ((id, es) :: B) ida esa hdec2 hlen]
        simp

theorem chainWalkRev_eq_reverse (st : BTState) (h : validChainState st = true) :
    chainWalkRev st = (leavesN st.root).reverse := by
  rw [validChainState, Bool.and_eq_true] at h
  obtain ⟨hvs, hprev⟩ := h
  rw [validSearchState, Bool.and_eq_true, Bool.and_eq_true] at hvs
  obtain ⟨⟨hwf, _⟩, hnd⟩ := hvs
  rw [leafIds_eq_map_fst] at hprev hnd
  have hnd2 : ((leavesN st.root).map Prod.fst).Nodup := of_decide_eq_true hnd
  obtain ⟨A, id, es, hleaves, hright⟩ :=
    rightmostLeaf_spec (heightN st.root) st.root none none hwf (le_refl _)
  have hend : endLeaf st = some (id, es) := by
    rw [endLeaf, hright]
  rw [chainWalkRev, hend]
  have hfuel : A.length < walkFuel st.root := by
    have h1 : (leafIdsN st.root).length = A.length + 1 := by
      rw [leavesN_length_eq, hleaves, List.length_append, List.length_cons]
      rfl
    rw [walkFuel]
    omega
  rw [walkPrev_spec st.root st.chain hprev hnd2 (walkFuel st.root) A [] id es
    hleaves hfuel]
  rw [hleaves]
  simp

end BTreeJs

namespace BTreeJs

/-- C9 (amended): for every tree state satisfying the resting chain
invariants (well-formed search structure, nextLeaf chaining the leaves left
to right with the prevLeaf map as its inverse, distinct leaf addresses), the
forward traversal by nextLeaf from the leftmost leaf visits every leaf
exactly once, left to right, enumerating exactly the stored entries in
ascending key order; the backward traversal by prevLeaf from the rightmost
leaf is its exact reverse; and the leftmost leaf's prevLeaf and the
rightmost leaf's nextLeaf are null.  The invariant hypothesis is necessary:
the insert bug of C3 reaches states with duplicate keys whose chain
enumeration is not in ascending key order. -/
theorem c9_leaf_chain_traversal (st : BTState) (h : validChainState st = true) :
    chainWalk st = leavesN st.root ∧
    joinEnts (chainWalk st) = inorderN st.root ∧
    strictSorted ((inorderN st.root).map Prod.fst) = true ∧
    chainWalkRev st = (chainWalk st).reverse ∧
    lmGet st.chain.prev ((leafIdsN st.root).headD 0) = none ∧
    lmGet st.chain.next ((leafIdsN st.root).getLastD 0) = none := by
  have h1 := chainWalk_eq_leaves st h
  have h4 := chainWalkRev_eq_reverse st h
  rw [validChainState, Bool.and_eq_true] at h
  obtain ⟨hvs, hprev⟩ := h
  rw [validSearchState, Bool.and_eq_true, Bool.and_eq_true] at hvs
  obtain ⟨⟨hwf, hchain⟩, hnd⟩ := hvs
  obtain ⟨id, es, B, hleaves, hleft⟩ :=
    leftmostLeaf_spec (heightN st.root) st.root none none hwf (le_refl _)
  obtain ⟨A, idr, esr, hleavesR, hright⟩ :=
    rightmostLeaf_spec (heightN st.root) st.root none none hwf (le_refl _)
  refine ⟨h1, ?_, ?_, ?_, ?_, ?_⟩
  · rw [h1, ← inorder_eq_joinEnts]
  · exact (strictSorted_iff _).mpr (wfB_sorted_bounds st.root none none hwf).1
  · rw [h4, h1]
  · have hids : leafIdsN st.root = id :: B.map Prod.fst := by
      rw [leafIds_eq_map_fst, hleaves]
      simp
    rw [hids] at hprev ⊢
    rw [chainPrevOk, Bool.and_eq_true] at hprev
    simpa using eq_of_beq hprev.1
  · have hids : leafIdsN st.root = A.map Prod.fst ++ [idr] := by
      rw [leafIds_eq_map_fst, hleavesR]
      simp
    have hchain2 : chainNextOk st.chain.next (A.map Prod.fst ++ idr :: []) = true := by
      rw [← hids]
      exact hchain
    have hget := chainNextOk_at st.chain.next (A.map Prod.fst) idr [] hchain2
    rw [hids, List.getLastD_concat]
    simpa using hget

set_option maxRecDepth 40000 in
/-- C9 counterexample: the public operation sequence "insert keys 0..63,
then insert key 32 again" reaches a state whose forward leaf-chain
traversal enumerates key 32 twice, so it does not enumerate the entries in
ascending key order as the claim asserts for the state after every public
operation. -/
theorem c9_counterexample_duplicate_key_in_chain :
    ((joinEnts (chainWalk exTree65)).map Prod.fst).count 32 = 2 ∧
    strictSorted ((joinEnts (chainWalk exTree65)).map Prod.fst) = false := by
  constructor
  · decide
  · decide

set_option maxRecDepth 40000 in
/-- The resting chain invariants hold for the concrete 64-entry two-leaf
tree, and the traversal conclusions follow for it by the theorem. -/
theorem c9_witness :
    validChainState exTree64 = true ∧
    (chainWalk exTree64 = leavesN exTree64.root ∧
     joinEnts (chainWalk exTree64) = inorderN exTree64.root ∧
     strictSorted ((inorderN exTree64.root).map Prod.fst) = true ∧
     chainWalkRev exTree64 = (chainWalk exTree64).reverse ∧
     lmGet exTree64.chain.prev ((leafIdsN exTree64.root).headD 0) = none ∧
     lmGet exTree64.chain.next ((leafIdsN exTree64.root).getLastD 0) = none) :=
  ⟨by decide, c9_leaf_chain_traversal exTree64 (by decide)⟩

end BTreeJs
